import Mathlib

/-!
Verification of the herald storage/search core against its specification.

The definitions below are a shallow embedding of the Go sources:
  * `db/db.go`      — the UTXO row codec (`PackKey`, `PackValue`,
    `UTXOKeyPackPartial`, `UTXOKeyUnpack`, `UTXOValueUnpack`) and the
    iteration engine (`Iter` and its inner `stopIteration` closure);
  * `server/server.go` — the search-ahead post-processor (`searchAhead`).

Go byte slices are modelled as `List Nat` (each element a byte value),
machine integers as `Nat`/`Int` with explicit bounds, Go `copy` and
slicing by explicit `take`/`drop` arithmetic, and Go runtime panics by
`Option`/error results.
-/

namespace Herald

/-- Byte strings: Go `[]byte` as a list of byte values. -/
abbrev Bytes := List Nat

/-! ### Go `bytes` package primitives -/

/-- Go `bytes.Compare(a, b) < 0`: lexicographic byte order, a proper
initial segment counts as smaller. -/
def lexLtB : Bytes → Bytes → Bool
  | [], [] => false
  | [], _ :: _ => true
  | _ :: _, [] => false
  | a :: as, b :: bs => decide (a < b) || (decide (a = b) && lexLtB as bs)

/-! ### Go `encoding/binary` big-endian primitives -/

/-- Go `binary.BigEndian.PutUint16`: the two big-endian bytes of a `uint16`. -/
def putUint16 (x : Nat) : Bytes := [x / 2 ^ 8 % 2 ^ 8, x % 2 ^ 8]

/-- Go `binary.BigEndian.PutUint32`: the four big-endian bytes of a `uint32`. -/
def putUint32 (x : Nat) : Bytes :=
  [x / 2 ^ 24 % 2 ^ 8, x / 2 ^ 16 % 2 ^ 8, x / 2 ^ 8 % 2 ^ 8, x % 2 ^ 8]

/-- Go `binary.BigEndian.PutUint64`: the eight big-endian bytes of a `uint64`. -/
def putUint64 (x : Nat) : Bytes :=
  [x / 2 ^ 56 % 2 ^ 8, x / 2 ^ 48 % 2 ^ 8, x / 2 ^ 40 % 2 ^ 8, x / 2 ^ 32 % 2 ^ 8,
   x / 2 ^ 24 % 2 ^ 8, x / 2 ^ 16 % 2 ^ 8, x / 2 ^ 8 % 2 ^ 8, x % 2 ^ 8]

/-- Go `binary.BigEndian.Uint16(b)`: reads the first two bytes big-endian;
`none` models the bounds-check panic when `len(b) < 2`. -/
def readUint16 : Bytes → Option Nat
  | b0 :: b1 :: _ => some (b0 * 2 ^ 8 + b1)
  | _ => none

/-- Go `binary.BigEndian.Uint32(b)`: reads the first four bytes big-endian;
`none` models the bounds-check panic when `len(b) < 4`. -/
def readUint32 : Bytes → Option Nat
  | b0 :: b1 :: b2 :: b3 :: _ =>
    some (((b0 * 2 ^ 8 + b1) * 2 ^ 8 + b2) * 2 ^ 8 + b3)
  | _ => none

/-- Go `binary.BigEndian.Uint64(b)`; `none` models the panic when `len(b) < 8`. -/
def readUint64 : Bytes → Option Nat
  | b0 :: b1 :: b2 :: b3 :: b4 :: b5 :: b6 :: b7 :: _ =>
    some (((((((b0 * 2 ^ 8 + b1) * 2 ^ 8 + b2) * 2 ^ 8 + b3) * 2 ^ 8 + b4) * 2 ^ 8
      + b5) * 2 ^ 8 + b6) * 2 ^ 8 + b7)
  | _ => none

/-- Go `copy(arr[off:], src)` on an array of length `arr.length`: writes
`min (arr.length - off) src.length` bytes of `src` at offset `off`,
leaving the rest of `arr` unchanged.  (All uses below have
`off ≤ arr.length`.) -/
def putAt (arr : Bytes) (off : Nat) (src : Bytes) : Bytes :=
  arr.take off ++ src.take (arr.length - off) ++ arr.drop (off + src.length)

/-! ### The UTXO row codec (db/db.go) -/

/-- Modelled from the spec: `prefixes.UTXO` comes from the
`db/prefixes` package, which is not under `src/`; the spec (§3) fixes
every row prefix as a single byte naming the column family.  The exact
byte value is irrelevant to every claim below; only its length (1) is
used by the code. -/
def prefixesUTXO : Bytes := [117]

/-- Go `db.UTXOKey`.  Field names in the source: `Prefix`, `HashX`,
`TxNum` (`uint32`), `Nout` (`uint16`). -/
structure UTXOKey where
  pfx : Bytes
  hashX : Bytes
  txNum : Nat
  nout : Nat
deriving DecidableEq, Repr

/-- Go `db.UTXOValue`.  Field name in the source: `Amount` (`uint64`). -/
structure UTXOValue where
  amount : Nat
deriving DecidableEq, Repr

/-- A logically valid UTXO key record: one-byte prefix, 11-byte hashX,
32-bit tx_num, 16-bit nout, with genuine byte values. -/
def UTXOKey.legal (k : UTXOKey) : Prop :=
  k.pfx.length = 1 ∧ (∀ b ∈ k.pfx, b < 2 ^ 8) ∧
  k.hashX.length = 11 ∧ (∀ b ∈ k.hashX, b < 2 ^ 8) ∧
  k.txNum < 2 ^ 32 ∧ k.nout < 2 ^ 16

instance (k : UTXOKey) : Decidable k.legal := by
  unfold UTXOKey.legal; infer_instance

/-- Go `(*UTXOKey).PackKey` (db/db.go):
```
n := prefixLen + 11 + 4 + 2
key := make([]byte, n)
copy(key, k.Prefix)
copy(key[prefixLen:], k.HashX)
binary.BigEndian.PutUint32(key[prefixLen+11:], k.TxNum)
binary.BigEndian.PutUint16(key[prefixLen+15:], k.Nout)
``` -/
def PackKey (k : UTXOKey) : Bytes :=
  let prefixLen := prefixesUTXO.length
  let n := prefixLen + 11 + 4 + 2
  let key := List.replicate n 0
  let key := putAt key 0 k.pfx
  let key := putAt key prefixLen k.hashX
  let key := putAt key (prefixLen + 11) (putUint32 k.txNum)
  let key := putAt key (prefixLen + 15) (putUint16 k.nout)
  key

/-- Go `UTXOKeyPackPartial(k, nFields)` (db/db.go).  The source clamps
`nFields` (a Go `int`, so modelled as `Int`) into `[0, 3]`, computes the
length by accumulating 11/4/2 for each included field in a loop, and
writes prefix, hashX, tx_num, nout for the included fields only. -/
def UTXOKeyPackPartial (k : UTXOKey) (nFieldsIn : Int) : Bytes :=
  let nFields := if nFieldsIn > 3 then 3 else nFieldsIn
  let nFields := if nFields < 0 then 0 else nFields
  let prefixLen := prefixesUTXO.length
  let n := prefixLen + (if 1 ≤ nFields then 11 else 0) +
    (if 2 ≤ nFields then 4 else 0) + (if 3 ≤ nFields then 2 else 0)
  let key := List.replicate n 0
  let key := putAt key 0 k.pfx
  let key := if 1 ≤ nFields then putAt key prefixLen k.hashX else key
  let key := if 2 ≤ nFields then putAt key (prefixLen + 11) (putUint32 k.txNum) else key
  let key := if 3 ≤ nFields then putAt key (prefixLen + 15) (putUint16 k.nout) else key
  key

/-- Go `UTXOKeyUnpack(key)` (db/db.go):
```
return &UTXOKey{
    Prefix: key[:1],
    HashX:  key[1:12],
    TxNum:  binary.BigEndian.Uint32(key[12:]),
    Nout:   binary.BigEndian.Uint16(key[16:]),
}
```
There is no validation in the source: `none` models the runtime panic
(slice out of range / bounds check) on inputs shorter than 18 bytes. -/
def UTXOKeyUnpack (key : Bytes) : Option UTXOKey :=
  if key.length < 12 then none
  else
    match readUint32 (key.drop 12), readUint16 (key.drop 16) with
    | some t, some n => some ⟨key.take 1, (key.drop 1).take 11, t, n⟩
    | _, _ => none

/-- Go `(*UTXOValue).PackValue` (db/db.go). -/
def PackValue (v : UTXOValue) : Bytes := putUint64 v.amount

/-- Go `UTXOValueUnpack(value)` (db/db.go); `none` models the panic on
inputs shorter than 8 bytes. -/
def UTXOValueUnpack (value : Bytes) : Option UTXOValue :=
  match readUint64 value with
  | some a => some ⟨a⟩
  | none => none

/-! ### Basic facts about the byte primitives -/

theorem putUint32_length (x : Nat) : (putUint32 x).length = 4 := rfl

theorem putUint16_length (x : Nat) : (putUint16 x).length = 2 := rfl

theorem putAt_of_le (arr : Bytes) (off : Nat) (src : Bytes)
    (h : off + src.length ≤ arr.length) :
    putAt arr off src = arr.take off ++ src ++ arr.drop (off + src.length) := by
  unfold putAt
  rw [List.take_of_length_le (show src.length ≤ arr.length - off by omega)]

theorem putAt_append_write (a rest src : Bytes) (h : src.length ≤ rest.length) :
    putAt (a ++ rest) a.length src = a ++ src ++ rest.drop src.length := by
  rw [putAt_of_le _ _ _ (by simp; omega)]
  rw [List.take_left]
  rw [List.drop_append_eq_append_drop]
  rw [List.drop_of_length_le (by omega)]
  simp

/-- The full pack of a legal UTXO key, in closed form. -/
theorem PackKey_eq (k : UTXOKey) (h1 : k.pfx.length = 1) (h11 : k.hashX.length = 11) :
    PackKey k = k.pfx ++ k.hashX ++ putUint32 k.txNum ++ putUint16 k.nout := by
  have u : PackKey k =
      putAt (putAt (putAt (putAt (List.replicate 18 0) 0 k.pfx) 1 k.hashX) 12
        (putUint32 k.txNum)) 16 (putUint16 k.nout) := rfl
  have s1 : putAt (List.replicate 18 0) 0 k.pfx = k.pfx ++ List.replicate 17 0 := by
    have := putAt_append_write [] (List.replicate 18 0) k.pfx (by simp [h1])
    simpa [h1, List.drop_replicate] using this
  have s2 : putAt (k.pfx ++ List.replicate 17 0) 1 k.hashX
      = k.pfx ++ k.hashX ++ List.replicate 6 0 := by
    have := putAt_append_write k.pfx (List.replicate 17 0) k.hashX (by simp [h11])
    rw [h1] at this
    simpa [h11, List.drop_replicate] using this
  have s3 : putAt (k.pfx ++ k.hashX ++ List.replicate 6 0) 12 (putUint32 k.txNum)
      = k.pfx ++ k.hashX ++ putUint32 k.txNum ++ List.replicate 2 0 := by
    have := putAt_append_write (k.pfx ++ k.hashX) (List.replicate 6 0) (putUint32 k.txNum)
      (by simp [putUint32_length])
    rw [List.length_append, h1, h11] at this
    simpa [putUint32_length, List.drop_replicate, List.append_assoc] using this
  have s4 : putAt (k.pfx ++ k.hashX ++ putUint32 k.txNum ++ List.replicate 2 0) 16
      (putUint16 k.nout)
      = k.pfx ++ k.hashX ++ putUint32 k.txNum ++ putUint16 k.nout := by
    have := putAt_append_write (k.pfx ++ k.hashX ++ putUint32 k.txNum) (List.replicate 2 0)
      (putUint16 k.nout) (by simp [putUint16_length])
    rw [List.length_append, List.length_append, h1, h11, putUint32_length] at this
    simpa [putUint16_length, List.drop_replicate, List.append_assoc] using this
  rw [u, s1, s2, s3, s4]

theorem readUint32_putUint32 (x : Nat) (hx : x < 2 ^ 32) (rest : Bytes) :
    readUint32 (putUint32 x ++ rest) = some x := by
  simp only [putUint32, List.cons_append, List.nil_append, readUint32]
  congr 1
  omega

theorem readUint16_putUint16 (x : Nat) (hx : x < 2 ^ 16) (rest : Bytes) :
    readUint16 (putUint16 x ++ rest) = some x := by
  simp only [putUint16, List.cons_append, List.nil_append, readUint16]
  congr 1
  omega

theorem readUint64_putUint64 (x : Nat) (hx : x < 2 ^ 64) :
    readUint64 (putUint64 x) = some x := by
  simp only [putUint64, readUint64]
  congr 1
  omega

theorem readUint32_none {l : Bytes} (h : l.length < 4) : readUint32 l = none := by
  rcases l with _ | ⟨a, l⟩; · rfl
  rcases l with _ | ⟨b, l⟩; · rfl
  rcases l with _ | ⟨c, l⟩; · rfl
  rcases l with _ | ⟨d, l⟩; · rfl
  simp only [List.length_cons] at h; omega

theorem readUint16_none {l : Bytes} (h : l.length < 2) : readUint16 l = none := by
  rcases l with _ | ⟨a, l⟩; · rfl
  rcases l with _ | ⟨b, l⟩; · rfl
  simp only [List.length_cons] at h; omega

theorem readUint32_isSome {l : Bytes} (h : 4 ≤ l.length) : ∃ v, readUint32 l = some v := by
  rcases l with _ | ⟨a, l⟩; · simp only [List.length_nil] at h; omega
  rcases l with _ | ⟨b, l⟩; · simp only [List.length_cons, List.length_nil] at h; omega
  rcases l with _ | ⟨c, l⟩; · simp only [List.length_cons, List.length_nil] at h; omega
  rcases l with _ | ⟨d, l⟩; · simp only [List.length_cons, List.length_nil] at h; omega
  exact ⟨_, rfl⟩

theorem readUint16_isSome {l : Bytes} (h : 2 ≤ l.length) : ∃ v, readUint16 l = some v := by
  rcases l with _ | ⟨a, l⟩; · simp only [List.length_nil] at h; omega
  rcases l with _ | ⟨b, l⟩; · simp only [List.length_cons, List.length_nil] at h; omega
  exact ⟨_, rfl⟩

/-- Unpacking a packed legal UTXO key recovers the record. -/
theorem UTXOKeyUnpack_PackKey (k : UTXOKey) (hk : k.legal) :
    UTXOKeyUnpack (PackKey k) = some k := by
  obtain ⟨h1, hb1, h11, hb11, ht, hn⟩ := hk
  rw [PackKey_eq k h1 h11]
  unfold UTXOKeyUnpack
  have hlen : (k.pfx ++ k.hashX ++ putUint32 k.txNum ++ putUint16 k.nout).length = 18 := by
    simp [h1, h11, putUint32_length, putUint16_length]
  rw [if_neg (by omega)]
  have d12 : (k.pfx ++ k.hashX ++ putUint32 k.txNum ++ putUint16 k.nout).drop 12
      = putUint32 k.txNum ++ putUint16 k.nout := by
    rw [show k.pfx ++ k.hashX ++ putUint32 k.txNum ++ putUint16 k.nout
        = (k.pfx ++ k.hashX) ++ (putUint32 k.txNum ++ putUint16 k.nout) by
      simp [List.append_assoc]]
    exact List.drop_left' (by simp [h1, h11])
  have d16 : (k.pfx ++ k.hashX ++ putUint32 k.txNum ++ putUint16 k.nout).drop 16
      = putUint16 k.nout := by
    rw [show k.pfx ++ k.hashX ++ putUint32 k.txNum ++ putUint16 k.nout
        = (k.pfx ++ k.hashX ++ putUint32 k.txNum) ++ putUint16 k.nout by
      simp [List.append_assoc]]
    exact List.drop_left' (by simp [h1, h11, putUint32_length])
  rw [d12, d16, readUint32_putUint32 _ ht]
  have r16 : readUint16 (putUint16 k.nout) = some k.nout := by
    simpa using readUint16_putUint16 k.nout hn []
  rw [r16]
  have tk1 : (k.pfx ++ k.hashX ++ putUint32 k.txNum ++ putUint16 k.nout).take 1 = k.pfx := by
    rw [show k.pfx ++ k.hashX ++ putUint32 k.txNum ++ putUint16 k.nout
        = k.pfx ++ (k.hashX ++ putUint32 k.txNum ++ putUint16 k.nout) by
      simp [List.append_assoc]]
    exact List.take_left' h1
  have dk1 : ((k.pfx ++ k.hashX ++ putUint32 k.txNum ++ putUint16 k.nout).drop 1).take 11
      = k.hashX := by
    rw [show k.pfx ++ k.hashX ++ putUint32 k.txNum ++ putUint16 k.nout
        = k.pfx ++ (k.hashX ++ (putUint32 k.txNum ++ putUint16 k.nout)) by
      simp [List.append_assoc]]
    rw [List.drop_left' h1]
    exact List.take_left' h11
  rw [tk1, dk1]

/-- Unpacking a packed 64-bit UTXO value recovers the record. -/
theorem UTXOValueUnpack_PackValue (v : UTXOValue) (hv : v.amount < 2 ^ 64) :
    UTXOValueUnpack (PackValue v) = some v := by
  unfold UTXOValueUnpack PackValue
  rw [readUint64_putUint64 v.amount hv]

/-- C1.  Round-trip and injectivity of the UTXO codec: for every legal
UTXO record (one-byte prefix, 11-byte hashX, 32-bit tx_num, 16-bit nout,
64-bit amount), `UTXOKeyUnpack (PackKey k) = k` and
`UTXOValueUnpack (PackValue v) = v`, and `PackKey`/`PackValue` are
injective over such records. -/
theorem utxo_codec_roundtrip_injective :
    (∀ k : UTXOKey, k.legal → UTXOKeyUnpack (PackKey k) = some k) ∧
    (∀ v : UTXOValue, v.amount < 2 ^ 64 → UTXOValueUnpack (PackValue v) = some v) ∧
    (∀ k k' : UTXOKey, k.legal → k'.legal → PackKey k = PackKey k' → k = k') ∧
    (∀ v v' : UTXOValue, v.amount < 2 ^ 64 → v'.amount < 2 ^ 64 →
      PackValue v = PackValue v' → v = v') := by
  refine ⟨UTXOKeyUnpack_PackKey, UTXOValueUnpack_PackValue, ?_, ?_⟩
  · intro k k' hk hk' h
    have := congrArg UTXOKeyUnpack h
    rw [UTXOKeyUnpack_PackKey k hk, UTXOKeyUnpack_PackKey k' hk'] at this
    exact Option.some.injEq _ _ ▸ this |>.symm ▸ rfl
  · intro v v' hv hv' h
    have := congrArg UTXOValueUnpack h
    rw [UTXOValueUnpack_PackValue v hv, UTXOValueUnpack_PackValue v' hv'] at this
    exact Option.some.injEq _ _ ▸ this |>.symm ▸ rfl

/-- A concrete legal UTXO key used by witnesses. -/
def exKey : UTXOKey := ⟨[117], [1, 2, 3, 4, 5, 6, 7, 8, 9, 10, 11], 70000, 513⟩

/-- A concrete legal UTXO key, larger than `exKey` in schema order. -/
def exKey2 : UTXOKey := ⟨[117], [1, 2, 3, 4, 5, 6, 7, 8, 9, 10, 11], 70000, 514⟩

/-- A concrete UTXO value used by witnesses. -/
def exVal : UTXOValue := ⟨123456789⟩

/-- Witness for C1 at a concrete legal record. -/
theorem utxo_codec_roundtrip_injective_witness :
    UTXOKeyUnpack (PackKey exKey) = some exKey ∧
    UTXOValueUnpack (PackValue exVal) = some exVal :=
  ⟨utxo_codec_roundtrip_injective.1 exKey (by decide),
   utxo_codec_roundtrip_injective.2.1 exVal (by decide)⟩

/-! ### C8: behaviour of `UTXOKeyUnpack` on malformed inputs -/

/-- C8 counterexample.  An 18-byte key whose first byte 0 is not the UTXO
prefix byte is happily unpacked into a record (the claim says unpacking
must fail with `MalformedKey`), and a short key makes the code panic
(modelled `none`) instead of returning an error value. -/
theorem utxo_unpack_no_malformed_check :
    UTXOKeyUnpack [0, 1, 2, 3, 4, 5, 6, 7, 8, 9, 10, 11, 12, 13, 14, 15, 16, 17]
      = some ⟨[0], [1, 2, 3, 4, 5, 6, 7, 8, 9, 10, 11], 202182159, 4113⟩ ∧
    [0] ≠ prefixesUTXO ∧
    UTXOKeyUnpack [117, 1, 2] = none := by
  refine ⟨by decide, by decide, by decide⟩

/-- C8 amended.  `UTXOKeyUnpack` performs no validation at all: every
input of length at least 18 unpacks to a record whose prefix field is
just the first input byte, whatever it is, while an input shorter than
18 bytes makes the code panic with an out-of-range slice (modelled as
`none`) — there is no `MalformedKey` error path. -/
theorem utxo_unpack_unvalidated (key : Bytes) :
    (key.length < 18 → UTXOKeyUnpack key = none) ∧
    (18 ≤ key.length → ∃ r : UTXOKey, UTXOKeyUnpack key = some r ∧
      r.pfx = key.take 1 ∧ r.hashX = (key.drop 1).take 11) := by
  constructor
  · intro h
    unfold UTXOKeyUnpack
    by_cases h12 : key.length < 12
    · rw [if_pos h12]
    · rw [if_neg h12]
      rw [readUint16_none (by simp only [List.length_drop]; omega)]
      by_cases h16 : key.length < 16
      · rw [readUint32_none (by simp only [List.length_drop]; omega)]
      · obtain ⟨v, hv⟩ := readUint32_isSome (l := key.drop 12)
          (by simp only [List.length_drop]; omega)
        rw [hv]
  · intro h
    obtain ⟨t, ht⟩ := readUint32_isSome (l := key.drop 12)
      (by simp only [List.length_drop]; omega)
    obtain ⟨n, hn⟩ := readUint16_isSome (l := key.drop 16)
      (by simp only [List.length_drop]; omega)
    unfold UTXOKeyUnpack
    rw [if_neg (by omega), ht, hn]
    exact ⟨_, rfl, rfl, rfl⟩

/-- Witness for the amended C8 at concrete short and long inputs. -/
theorem utxo_unpack_unvalidated_witness :
    UTXOKeyUnpack [117, 1, 2, 3] = none ∧
    (∃ r : UTXOKey,
      UTXOKeyUnpack [9, 1, 2, 3, 4, 5, 6, 7, 8, 9, 10, 11, 12, 13, 14, 15, 16, 17] = some r ∧
      r.pfx = [9, 1, 2, 3, 4, 5, 6, 7, 8, 9, 10, 11, 12, 13, 14, 15, 16, 17].take 1 ∧
      r.hashX = ([9, 1, 2, 3, 4, 5, 6, 7, 8, 9, 10, 11, 12, 13, 14, 15, 16, 17].drop 1).take 11) :=
  ⟨(utxo_unpack_unvalidated [117, 1, 2, 3]).1 (by decide),
   (utxo_unpack_unvalidated [9, 1, 2, 3, 4, 5, 6, 7, 8, 9, 10, 11, 12, 13, 14, 15, 16, 17]).2
     (by decide)⟩

/-! ### C6: partial key packing -/

theorem UTXOKeyPackPartial_one (k : UTXOKey) (h1 : k.pfx.length = 1)
    (h11 : k.hashX.length = 11) :
    UTXOKeyPackPartial k 1 = k.pfx ++ k.hashX := by
  have u : UTXOKeyPackPartial k 1
      = putAt (putAt (List.replicate 12 0) 0 k.pfx) 1 k.hashX := rfl
  have s1 : putAt (List.replicate 12 0) 0 k.pfx = k.pfx ++ List.replicate 11 0 := by
    have := putAt_append_write [] (List.replicate 12 0) k.pfx (by simp [h1])
    simpa [h1, List.drop_replicate] using this
  have s2 : putAt (k.pfx ++ List.replicate 11 0) 1 k.hashX = k.pfx ++ k.hashX := by
    have := putAt_append_write k.pfx (List.replicate 11 0) k.hashX (by simp [h11])
    rw [h1] at this
    simpa [h11, List.drop_replicate] using this
  rw [u, s1, s2]

theorem UTXOKeyPackPartial_two (k : UTXOKey) (h1 : k.pfx.length = 1)
    (h11 : k.hashX.length = 11) :
    UTXOKeyPackPartial k 2 = k.pfx ++ k.hashX ++ putUint32 k.txNum := by
  have u : UTXOKeyPackPartial k 2
      = putAt (putAt (putAt (List.replicate 16 0) 0 k.pfx) 1 k.hashX) 12
        (putUint32 k.txNum) := rfl
  have s1 : putAt (List.replicate 16 0) 0 k.pfx = k.pfx ++ List.replicate 15 0 := by
    have := putAt_append_write [] (List.replicate 16 0) k.pfx (by simp [h1])
    simpa [h1, List.drop_replicate] using this
  have s2 : putAt (k.pfx ++ List.replicate 15 0) 1 k.hashX
      = k.pfx ++ k.hashX ++ List.replicate 4 0 := by
    have := putAt_append_write k.pfx (List.replicate 15 0) k.hashX (by simp [h11])
    rw [h1] at this
    simpa [h11, List.drop_replicate, List.append_assoc] using this
  have s3 : putAt (k.pfx ++ k.hashX ++ List.replicate 4 0) 12 (putUint32 k.txNum)
      = k.pfx ++ k.hashX ++ putUint32 k.txNum := by
    have := putAt_append_write (k.pfx ++ k.hashX) (List.replicate 4 0) (putUint32 k.txNum)
      (by simp [putUint32_length])
    rw [List.length_append, h1, h11] at this
    simpa [putUint32_length, List.drop_replicate, List.append_assoc] using this
  rw [u, s1, s2, s3]

theorem UTXOKeyPackPartial_three (k : UTXOKey) : UTXOKeyPackPartial k 3 = PackKey k := rfl

/-- The partial packer only depends on the clamped field count. -/
theorem UTXOKeyPackPartial_clamp (k : UTXOKey) (n : Int) :
    UTXOKeyPackPartial k n = UTXOKeyPackPartial k (min (max n 0) 3) := by
  rcases lt_trichotomy n 0 with hn | hn | hn
  · rw [show min (max n 0) 3 = 0 by omega]
    unfold UTXOKeyPackPartial
    simp only [if_neg (show ¬ n > 3 by omega), if_pos (show n < 0 by omega)]
    norm_num
  · subst hn
    norm_num
  · rcases le_or_lt n 3 with h3 | h3
    · rw [show min (max n 0) 3 = n by omega]
    · rw [show min (max n 0) 3 = 3 by omega]
      unfold UTXOKeyPackPartial
      simp only [if_pos (show n > 3 by omega)]
      norm_num

/-- C6 counterexample: for the concrete legal record `exKey` and `k = 3`
(allowed by the claim, which quantifies over `1 ≤ k ≤ 3`), the partial
pack of the first three fields is the whole packed key, so it is not a
*strict* prefix of `PackKey`. -/
theorem utxo_partial_three_not_strict :
    UTXOKeyPackPartial exKey 3 = PackKey exKey ∧ exKey.legal :=
  ⟨rfl, by decide⟩

/-- C6 amended.  For every legal record the partial pack of the first
`k` fields is a prefix of the full pack — a strict one for `k ∈ {1, 2}`,
while at `k = 3` it equals the full pack — and for every `n` the partial
pack equals the partial pack at the clamp of `n` into `[0, 3]`. -/
theorem utxo_partial_prefix_clamp (k : UTXOKey) (hk : k.legal) :
    ( UTXOKeyPackPartial k 1 <+: PackKey k ∧ UTXOKeyPackPartial k 1 ≠ PackKey k) ∧
    ( UTXOKeyPackPartial k 2 <+: PackKey k ∧ UTXOKeyPackPartial k 2 ≠ PackKey k) ∧
    UTXOKeyPackPartial k 3 = PackKey k ∧
    (∀ n : Int, UTXOKeyPackPartial k n = UTXOKeyPackPartial k (min (max n 0) 3)) := by
  obtain ⟨h1, hb1, h11, hb11, ht, hn⟩ := hk
  have e1 := UTXOKeyPackPartial_one k h1 h11
  have e2 := UTXOKeyPackPartial_two k h1 h11
  have ef := PackKey_eq k h1 h11
  refine ⟨⟨?_, ?_⟩, ⟨?_, ?_⟩, UTXOKeyPackPartial_three k, fun n => UTXOKeyPackPartial_clamp k n⟩
  · rw [e1, ef]
    exact ⟨putUint32 k.txNum ++ putUint16 k.nout, by simp [List.append_assoc]⟩
  · intro h
    have := congrArg List.length h
    rw [e1, ef] at this
    simp [h1, h11, putUint32_length, putUint16_length] at this
  · rw [e2, ef]
    exact ⟨putUint16 k.nout, by simp [List.append_assoc]⟩
  · intro h
    have := congrArg List.length h
    rw [e2, ef] at this
    simp [h1, h11, putUint32_length, putUint16_length] at this

/-- Witness for the amended C6 at the concrete record `exKey`. -/
theorem utxo_partial_prefix_clamp_witness :
    UTXOKeyPackPartial exKey 1 <+: PackKey exKey ∧
    UTXOKeyPackPartial exKey 2 ≠ PackKey exKey ∧
    UTXOKeyPackPartial exKey 7 = UTXOKeyPackPartial exKey (min (max 7 0) 3) :=
  ⟨(utxo_partial_prefix_clamp exKey (by decide)).1.1,
   (utxo_partial_prefix_clamp exKey (by decide)).2.1.2,
   (utxo_partial_prefix_clamp exKey (by decide)).2.2.2 7⟩

/-! ### C7: packing is order-preserving -/

theorem lexLtB_cons (a b : Nat) (as bs : Bytes) :
    lexLtB (a :: as) (b :: bs) = true ↔ a < b ∨ (a = b ∧ lexLtB as bs = true) := by
  simp [lexLtB]

/-- Lexicographic comparison distributes over appending behind
equal-length heads. -/
theorem lexLtB_append {a b : Bytes} (x y : Bytes) (h : a.length = b.length) :
    (lexLtB (a ++ x) (b ++ y) = true) ↔
      (lexLtB a b = true ∨ (a = b ∧ lexLtB x y = true)) := by
  induction a generalizing b with
  | nil =>
    rcases b with _ | ⟨d, ds⟩
    · simp [lexLtB]
    · simp at h
  | cons c cs ih =>
    rcases b with _ | ⟨d, ds⟩
    · simp at h
    · have hl : cs.length = ds.length := by simpa using h
      by_cases hcd : c = d
      · subst hcd
        simp only [List.cons_append, lexLtB_cons, lt_irrefl, false_or, true_and,
          List.cons.injEq, ih hl]
      · simp only [List.cons_append, lexLtB_cons, List.cons.injEq]
        constructor
        · rintro (h' | ⟨h', _⟩)
          · exact Or.inl (Or.inl h')
          · exact absurd h' hcd
        · rintro ((h' | ⟨h', _⟩) | ⟨⟨h', _⟩, _⟩)
          · exact Or.inl h'
          · exact absurd h' hcd
          · exact absurd h' hcd

/-- The value of a byte string read as a big-endian unsigned integer. -/
def beNat : Bytes → Nat
  | [] => 0
  | b :: bs => b * 2 ^ (8 * bs.length) + beNat bs

theorem beNat_lt (bs : Bytes) (h : ∀ b ∈ bs, b < 2 ^ 8) :
    beNat bs < 2 ^ (8 * bs.length) := by
  induction bs with
  | nil => simp [beNat]
  | cons b bs ih =>
    have hb : b < 2 ^ 8 := h b (by simp)
    have htail := ih (fun x hx => h x (by simp [hx]))
    have h1 : b * 2 ^ (8 * bs.length) + beNat bs < (b + 1) * 2 ^ (8 * bs.length) := by
      rw [add_mul, one_mul]
      exact Nat.add_lt_add_left htail _
    have h2 : (b + 1) * 2 ^ (8 * bs.length) ≤ 2 ^ 8 * 2 ^ (8 * bs.length) :=
      Nat.mul_le_mul_right _ hb
    have h3 : 2 ^ 8 * 2 ^ (8 * bs.length) = 2 ^ (8 * (b :: bs).length) := by
      rw [← pow_add]
      congr 1
      simp [List.length_cons]
      ring
    calc beNat (b :: bs) = b * 2 ^ (8 * bs.length) + beNat bs := rfl
      _ < (b + 1) * 2 ^ (8 * bs.length) := h1
      _ ≤ 2 ^ 8 * 2 ^ (8 * bs.length) := h2
      _ = 2 ^ (8 * (b :: bs).length) := h3

/-- Over equal-length byte strings with genuine byte values, big-endian
numeric order coincides with lexicographic byte order. -/
theorem beNat_lt_iff {a : Bytes} (b : Bytes) (hlen : a.length = b.length)
    (ha : ∀ x ∈ a, x < 2 ^ 8) (hb : ∀ x ∈ b, x < 2 ^ 8) :
    beNat a < beNat b ↔ lexLtB a b = true := by
  induction a generalizing b with
  | nil =>
    rcases b with _ | ⟨y, ys⟩
    · simp [beNat, lexLtB]
    · simp at hlen
  | cons x xs ih =>
    rcases b with _ | ⟨y, ys⟩
    · simp at hlen
    · have hl : xs.length = ys.length := by simpa using hlen
      have hxv : x < 2 ^ 8 := ha x (by simp)
      have hyv : y < 2 ^ 8 := hb y (by simp)
      have hxs := beNat_lt xs (fun z hz => ha z (by simp [hz]))
      have hys := beNat_lt ys (fun z hz => hb z (by simp [hz]))
      rw [hl] at hxs
      simp only [beNat, hl, lexLtB_cons]
      rcases Nat.lt_trichotomy x y with hxy | hxy | hxy
      · constructor
        · intro _; exact Or.inl hxy
        · intro _
          calc x * 2 ^ (8 * ys.length) + beNat xs
              < (x + 1) * 2 ^ (8 * ys.length) := by
                rw [add_mul, one_mul]; exact Nat.add_lt_add_left hxs _
            _ ≤ y * 2 ^ (8 * ys.length) := Nat.mul_le_mul_right _ hxy
            _ ≤ y * 2 ^ (8 * ys.length) + beNat ys := Nat.le_add_right _ _
      · subst hxy
        simp only [Nat.add_lt_add_iff_left, lt_irrefl, false_or, true_and]
        exact ih ys hl (fun z hz => ha z (by simp [hz])) (fun z hz => hb z (by simp [hz]))
      · constructor
        · intro hcon
          exfalso
          have : y * 2 ^ (8 * ys.length) + beNat ys
              < x * 2 ^ (8 * ys.length) + beNat xs := by
            calc y * 2 ^ (8 * ys.length) + beNat ys
                < (y + 1) * 2 ^ (8 * ys.length) := by
                  rw [add_mul, one_mul]; exact Nat.add_lt_add_left hys _
              _ ≤ x * 2 ^ (8 * ys.length) := Nat.mul_le_mul_right _ hxy
              _ ≤ x * 2 ^ (8 * ys.length) + beNat xs := Nat.le_add_right _ _
          omega
        · rintro (h' | ⟨h', _⟩) <;> omega

theorem beNat_putUint32 (x : Nat) (hx : x < 2 ^ 32) : beNat (putUint32 x) = x := by
  simp only [putUint32, beNat, List.length_cons, List.length_nil]
  omega

theorem beNat_putUint16 (x : Nat) (hx : x < 2 ^ 16) : beNat (putUint16 x) = x := by
  simp only [putUint16, beNat, List.length_cons, List.length_nil]
  omega

theorem putUint32_bytes (x : Nat) : ∀ z ∈ putUint32 x, z < 2 ^ 8 := by
  simp only [putUint32, List.mem_cons, List.not_mem_nil, or_false]
  rintro z (rfl | rfl | rfl | rfl) <;> omega

theorem putUint16_bytes (x : Nat) : ∀ z ∈ putUint16 x, z < 2 ^ 8 := by
  simp only [putUint16, List.mem_cons, List.not_mem_nil, or_false]
  rintro z (rfl | rfl) <;> omega

theorem putUint32_lex {x y : Nat} (hxy : x < y) (hy : y < 2 ^ 32) :
    lexLtB (putUint32 x) (putUint32 y) = true := by
  have h := beNat_lt_iff (a := putUint32 x) (putUint32 y) rfl
    (putUint32_bytes x) (putUint32_bytes y)
  rw [beNat_putUint32 x (lt_trans hxy hy), beNat_putUint32 y hy] at h
  exact h.mp hxy

theorem putUint16_lex {x y : Nat} (hxy : x < y) (hy : y < 2 ^ 16) :
    lexLtB (putUint16 x) (putUint16 y) = true := by
  have h := beNat_lt_iff (a := putUint16 x) (putUint16 y) rfl
    (putUint16_bytes x) (putUint16_bytes y)
  rw [beNat_putUint16 x (lt_trans hxy hy), beNat_putUint16 y hy] at h
  exact h.mp hxy

/-- The schema's declared order on UTXO keys: hashX (as a big-endian
unsigned integer), then tx_num, then nout. -/
def UTXOKey.schemaLt (r1 r2 : UTXOKey) : Prop :=
  beNat r1.hashX < beNat r2.hashX ∨
    (r1.hashX = r2.hashX ∧
      (r1.txNum < r2.txNum ∨ (r1.txNum = r2.txNum ∧ r1.nout < r2.nout)))

/-- C7.  Packing is order-preserving: for legal UTXO records with the
same one-byte prefix, schema order (hashX, tx_num, nout as unsigned
integers) implies strict lexicographic byte order of the packed keys. -/
theorem utxo_pack_monotone (r1 r2 : UTXOKey) (h1 : r1.legal) (h2 : r2.legal)
    (hp : r1.pfx = r2.pfx) (hlt : r1.schemaLt r2) :
    lexLtB (PackKey r1) (PackKey r2) = true := by
  obtain ⟨ha1, hab1, ha11, hab11, hat, han⟩ := h1
  obtain ⟨hc1, hcb1, hc11, hcb11, hct, hcn⟩ := h2
  rw [PackKey_eq r1 ha1 ha11, PackKey_eq r2 hc1 hc11]
  rw [show r1.pfx ++ r1.hashX ++ putUint32 r1.txNum ++ putUint16 r1.nout
      = r1.pfx ++ (r1.hashX ++ (putUint32 r1.txNum ++ putUint16 r1.nout)) by
    simp [List.append_assoc]]
  rw [show r2.pfx ++ r2.hashX ++ putUint32 r2.txNum ++ putUint16 r2.nout
      = r2.pfx ++ (r2.hashX ++ (putUint32 r2.txNum ++ putUint16 r2.nout)) by
    simp [List.append_assoc]]
  rw [lexLtB_append _ _ (by rw [hp])]
  refine Or.inr ⟨hp, ?_⟩
  rw [lexLtB_append _ _ (by rw [ha11, hc11])]
  rcases hlt with hx | ⟨hxeq, hrest⟩
  · exact Or.inl ((beNat_lt_iff r2.hashX (by rw [ha11, hc11]) hab11 hcb11).mp hx)
  · refine Or.inr ⟨hxeq, ?_⟩
    rw [lexLtB_append _ _ (by simp [putUint32_length])]
    rcases hrest with htn | ⟨htneq, hnn⟩
    · exact Or.inl (putUint32_lex htn hct)
    · exact Or.inr ⟨by rw [htneq], putUint16_lex hnn hcn⟩

/-- Witness for C7 at two concrete legal records differing in `nout`. -/
theorem utxo_pack_monotone_witness :
    lexLtB (PackKey exKey) (PackKey exKey2) = true :=
  utxo_pack_monotone exKey exKey2 (by decide) (by decide) (by decide)
    (by right; exact ⟨rfl, Or.inr ⟨rfl, by decide⟩⟩)

/-! ### The search-ahead post-processor (server/server.go, `searchAhead`)

Go `record` values carry `Txid`, `Nout`, `Height`, `ClaimId`,
`ChannelId`; search-ahead reads only `ChannelId` (the empty string is
Go's "no channel").  Go `map[string]int` counters are modelled as an
association list with default 0, `int` as `Int`, and the two deques as
lists popped at the head and pushed at the tail.  A Go panic (modulo by
a zero `pageSize`) is modelled explicitly, and the outer `for` loop gets
explicit fuel; `searchAhead` itself runs with enough fuel, which
`search_ahead_terminates` proves sufficient. -/

/-- Go `server.record`. -/
structure Rec where
  txid : String
  nout : Nat
  height : Nat
  claimId : String
  channelId : String
deriving DecidableEq, Repr

/-- Reading a Go `map[string]int`: missing keys read as 0. -/
def clookup : List (String × Int) → String → Int
  | [], _ => 0
  | (k, v) :: rest, ch => if k = ch then v else clookup rest ch

/-- Go `m[ch] = m[ch] + 1` on a `map[string]int`. -/
def cbump : List (String × Int) → String → List (String × Int)
  | [], ch => [(ch, 1)]
  | (k, v) :: rest, ch => if k = ch then (k, v + 1) :: rest else (k, v) :: cbump rest ch

/-- Result of running `searchAhead`: a normal return, a runtime panic
(modulo by zero page size), or exhausted model fuel. -/
inductive SAResult where
  | out : List Rec → SAResult
  | panicked : SAResult
  | fuelOut : SAResult
deriving DecidableEq, Repr

/-- The `nextPageHitsMaybeCheckLater` drain (server.go:1270-1276):
```
for i := 0; i < nextPageHitsMaybeCheckLater.Size(); i++ {
    rec := nextPageHitsMaybeCheckLater.PopLeft().(*record)
    if perChannelPerPage > 0 && channelCounters[rec.ChannelId] < perChannelPerPage {
        finalHits = append(finalHits, rec)
        channelCounters[rec.ChannelId] = channelCounters[rec.ChannelId] + 1
    }
}
```
`Size()` is re-read each iteration, so the loop stops once `i` reaches
the shrunken size, leaving the tail of the queue unprocessed; a popped
record that fails the test is dropped (not re-queued). -/
def laterDrain (pcpp : Int) : Nat → List Rec → List Rec → List (String × Int) →
    List Rec × List (String × Int) × List Rec
  | _, [], final, c => (final, c, [])
  | i, r :: rest, final, c =>
    if i < (r :: rest).length then
      if pcpp > 0 ∧ clookup c r.channelId < pcpp then
        laterDrain pcpp (i + 1) rest (final ++ [r]) (cbump c r.channelId)
      else
        laterDrain pcpp (i + 1) rest final c
    else (final, c, r :: rest)

/-- The `searchHitsQ` drain (server.go:1277-1290):
```
for !searchHitsQ.Empty() {
    hit := searchHitsQ.PopLeft().(*record)
    if hit.ChannelId == "" || perChannelPerPage < 0 {
        finalHits = append(finalHits, hit)
    } else if channelCounters[hit.ChannelId] < perChannelPerPage {
        finalHits = append(finalHits, hit)
        channelCounters[hit.ChannelId] = channelCounters[hit.ChannelId] + 1
        if len(finalHits) % pageSize == 0 { break }
    } else {
        nextPageHitsMaybeCheckLater.PushRight(hit)
    }
}
```
Returns `(finalHits, counters, later, remaining input)`; `none` models
the `len(finalHits) % pageSize` panic when `pageSize == 0`. -/
def inputDrain (ps pcpp : Int) : List Rec → List Rec → List (String × Int) → List Rec →
    Option (List Rec × List (String × Int) × List Rec × List Rec)
  | [], final, c, later => some (final, c, later, [])
  | hit :: rest, final, c, later =>
    if hit.channelId = "" ∨ pcpp < 0 then
      inputDrain ps pcpp rest (final ++ [hit]) c later
    else if clookup c hit.channelId < pcpp then
      if ps = 0 then none
      else if ((final ++ [hit]).length : Int) % ps = 0 then
        some (final ++ [hit], cbump c hit.channelId, later, rest)
      else
        inputDrain ps pcpp rest (final ++ [hit]) (cbump c hit.channelId) later
    else
      inputDrain ps pcpp rest final c (later ++ [hit])

/-- The outer loop of `searchAhead` (server.go:1260-1291):
```
for !searchHitsQ.Empty() || !nextPageHitsMaybeCheckLater.Empty() {
    if len(finalHits) > 0 && len(finalHits) % pageSize == 0 {
        channelCounters = make(map[string]int)
    } else if len(finalHits) != 0 {
        break
    }
    <later drain>; <input drain>
}
return finalHits
``` -/
def saLoop (ps pcpp : Int) : Nat → List Rec → List (String × Int) → List Rec → List Rec →
    SAResult
  | 0, _, _, _, _ => .fuelOut
  | fuel + 1, final, c, later, inputQ =>
    if inputQ.isEmpty ∧ later.isEmpty then .out final
    else if 0 < final.length ∧ ps = 0 then .panicked
    else if final.length ≠ 0 ∧ ((final.length : Int) % ps ≠ 0) then .out final
    else
      let c0 := if 0 < final.length then ([] : List (String × Int)) else c
      match laterDrain pcpp 0 later final c0 with
      | (final₁, c₁, later₁) =>
        match inputDrain ps pcpp inputQ final₁ c₁ later₁ with
        | none => .panicked
        | some (final₂, c₂, later₂, input₂) => saLoop ps pcpp fuel final₂ c₂ later₂ input₂

/-- Go `server.searchAhead(searchHits, pageSize, perChannelPerPage)`,
run with fuel `2*len(searchHits)+1`, which `search_ahead_terminates`
shows is always enough when `pageSize ≥ 1`. -/
def searchAhead (searchHits : List Rec) (pageSize perChannelPerPage : Int) : SAResult :=
  saLoop pageSize perChannelPerPage (2 * searchHits.length + 1) [] [] [] searchHits

/-- Shorthand for building test hits: claim id and channel id. -/
def mkRec (cl ch : String) : Rec := ⟨"", 0, 0, cl, ch⟩

/-! ### C5: `perChannelPerPage = 0` does not disable the cap -/

/-- C5.  The input-drain branch tests `perChannelPerPage < 0`, not
`≤ 0` as the Python reference implementation quoted above the function
does: at `perChannelPerPage = 0` a hit with a non-empty channel is
deferred (its counter `0 < 0` test fails) and then silently dropped by
the deferred-queue drain, so the single hit is lost entirely; at
`perChannelPerPage = -1` the cap is genuinely disabled and the input
comes back unchanged. -/
theorem search_ahead_pcpp_zero_drops :
    searchAhead [mkRec "A" "a"] 1 0 = .out [] ∧
    searchAhead [mkRec "A" "a"] 1 (-1) = .out [mkRec "A" "a"] := by
  constructor <;> rfl

/-! ### C3: the fairness cap is per aligned page, not per sliding window -/

/-- The C3 counterexample input: channels two, three, one, one. -/
def c3inp : List Rec := [mkRec "x" "two", mkRec "y" "three", mkRec "a" "one", mkRec "b" "one"]

/-- C3 counterexample.  With `page_size = 3` and `per_channel_per_page
= 1` the output is the input itself, and the window of 3 consecutive
items starting at position 1 contains channel "one" twice — more than
`per_channel_per_page` — so the every-window reading of the claim is
false.  (The cap holds only for the aligned pages `[0,3)` and `[3,4)`.) -/
theorem search_ahead_window_unfair :
    searchAhead c3inp 3 1 = .out c3inp ∧
    ¬ (((c3inp.drop 1).take 3).countP (fun r => r.channelId == "one") ≤ 1) := by
  constructor
  · rfl
  · decide

/-! ### C4: the output is not an order-preserving prefix permutation -/

/-- C4 counterexample input (A): four hits of channel 1 then six other
channels; page size 4, cap 1. -/
def c4inpA : List Rec :=
  [mkRec "A" "1", mkRec "B" "1", mkRec "C" "1", mkRec "D" "1", mkRec "E" "2",
   mkRec "F" "3", mkRec "G" "4", mkRec "H" "5", mkRec "I" "6", mkRec "J" "7"]

/-- What the code returns on `c4inpA` with page size 4 and cap 1:
hit C is dropped from the deferred queue while the later hits H, I, J
and D all appear. -/
def c4outA : List Rec :=
  [mkRec "A" "1", mkRec "E" "2", mkRec "F" "3", mkRec "G" "4", mkRec "B" "1",
   mkRec "H" "5", mkRec "I" "6", mkRec "J" "7", mkRec "D" "1"]

/-- C4 counterexample input (B): engineered so that a leftover deferred
hit `b` of channel 1 is overtaken by the later input hit `c` of the same
channel. -/
def c4inpB : List Rec :=
  [mkRec "u" "1", mkRec "v" "2", mkRec "w" "5", mkRec "a" "1", mkRec "a2" "2",
   mkRec "k" "5", mkRec "t" "7", mkRec "x" "2", mkRec "b" "1", mkRec "z3" "3",
   mkRec "z4" "4", mkRec "c" "1", mkRec "v6" "6"]

/-- The code's output on `c4inpB` with page size 4 and cap 1: channel-1
hits appear as u, a, c, b although the input order is u, a, b, c. -/
def c4outB : List Rec :=
  [mkRec "u" "1", mkRec "v" "2", mkRec "w" "5", mkRec "t" "7", mkRec "a" "1",
   mkRec "a2" "2", mkRec "z3" "3", mkRec "z4" "4", mkRec "k" "5", mkRec "x" "2",
   mkRec "c" "1", mkRec "v6" "6", mkRec "b" "1"]

/-- C4 counterexample.  (A) On `c4inpA` the output is not a permutation
of any prefix of the input (hit C is discarded — the deferred-drain has
no requeue branch — while the later hit J is kept).  (B) On `c4inpB`
the output does not preserve the input's relative order within channel
1 (`c` overtakes the still-deferred `b`). -/
theorem search_ahead_not_prefix_perm :
    (searchAhead c4inpA 4 1 = .out c4outA ∧ ∀ k : Nat, ¬ c4outA.Perm (c4inpA.take k)) ∧
    (searchAhead c4inpB 4 1 = .out c4outB ∧
      ¬ (c4outB.filter (fun r => r.channelId == "1")).Sublist
          (c4inpB.filter (fun r => r.channelId == "1"))) := by
  refine ⟨⟨rfl, ?_⟩, ⟨rfl, ?_⟩⟩
  · intro k h
    have hlen := h.length_eq
    rw [List.length_take] at hlen
    have h10 : c4inpA.length = 10 := rfl
    have h9 : c4outA.length = 9 := rfl
    rw [h10, h9] at hlen
    have hk : k = 9 := by omega
    subst hk
    have hc := h.count_eq (mkRec "C" "1")
    revert hc
    decide
  · intro h
    have heq := h.eq_of_length (by decide)
    exact absurd heq (by decide)

/-! ### C9: termination of `searchAhead` -/

theorem laterDrain_size (pcpp : Int) : ∀ (later : List Rec) (i : Nat) (final : List Rec)
    (c : List (String × Int)),
    (laterDrain pcpp i later final c).2.2.length ≤ later.length ∧
    (i < later.length → (laterDrain pcpp i later final c).2.2.length < later.length) := by
  intro later
  induction later with
  | nil => intro i final c; simp [laterDrain]
  | cons r rest ih =>
    intro i final c
    by_cases hi : i < (r :: rest).length
    · by_cases hc : pcpp > 0 ∧ clookup c r.channelId < pcpp
      · simp only [laterDrain, if_pos hi, if_pos hc]
        have := (ih (i + 1) (final ++ [r]) (cbump c r.channelId)).1
        constructor
        · simp only [List.length_cons]; omega
        · intro _; simp only [List.length_cons]; omega
      · simp only [laterDrain, if_pos hi, if_neg hc]
        have := (ih (i + 1) final c).1
        constructor
        · simp only [List.length_cons]; omega
        · intro _; simp only [List.length_cons]; omega
    · simp only [laterDrain, if_neg hi]
      exact ⟨le_refl _, fun h => absurd h hi⟩

theorem inputDrain_measure (ps pcpp : Int) : ∀ (input final : List Rec)
    (c : List (String × Int)) (later : List Rec) out,
    inputDrain ps pcpp input final c later = some out →
    2 * out.2.2.2.length + out.2.2.1.length ≤ 2 * input.length + later.length ∧
    (input ≠ [] → 2 * out.2.2.2.length + out.2.2.1.length < 2 * input.length + later.length) := by
  intro input
  induction input with
  | nil =>
    intro final c later out h
    simp only [inputDrain, Option.some.injEq] at h
    subst h
    simp
  | cons hit rest ih =>
    intro final c later out h
    simp only [inputDrain] at h
    by_cases h1 : hit.channelId = "" ∨ pcpp < 0
    · rw [if_pos h1] at h
      have := (ih (final ++ [hit]) c later out h).1
      refine ⟨by simp only [List.length_cons]; omega, fun _ => by simp only [List.length_cons]; omega⟩
    · rw [if_neg h1] at h
      by_cases h2 : clookup c hit.channelId < pcpp
      · rw [if_pos h2] at h
        by_cases h3 : ps = 0
        · rw [if_pos h3] at h; exact absurd h (by simp)
        · rw [if_neg h3] at h
          by_cases h4 : (((final ++ [hit]).length : Int) % ps = 0)
          · rw [if_pos h4] at h
            simp only [Option.some.injEq] at h
            subst h
            refine ⟨by simp only [List.length_cons]; omega,
              fun _ => by simp only [List.length_cons]; omega⟩
          · rw [if_neg h4] at h
            have := (ih (final ++ [hit]) (cbump c hit.channelId) later out h).1
            refine ⟨by simp only [List.length_cons]; omega,
              fun _ => by simp only [List.length_cons]; omega⟩
      · rw [if_neg h2] at h
        have := (ih final c (later ++ [hit]) out h).1
        have hl : (later ++ [hit]).length = later.length + 1 := by simp
        rw [hl] at this
        refine ⟨by simp only [List.length_cons]; omega,
          fun _ => by simp only [List.length_cons]; omega⟩

theorem inputDrain_isSome (ps pcpp : Int) (hps : ps ≠ 0) : ∀ (input final : List Rec)
    (c : List (String × Int)) (later : List Rec),
    ∃ out, inputDrain ps pcpp input final c later = some out := by
  intro input
  induction input with
  | nil => intro final c later; exact ⟨_, rfl⟩
  | cons hit rest ih =>
    intro final c later
    simp only [inputDrain]
    by_cases h1 : hit.channelId = "" ∨ pcpp < 0
    · rw [if_pos h1]; exact ih _ _ _
    · rw [if_neg h1]
      by_cases h2 : clookup c hit.channelId < pcpp
      · rw [if_pos h2, if_neg hps]
        by_cases h4 : (((final ++ [hit]).length : Int) % ps = 0)
        · rw [if_pos h4]; exact ⟨_, rfl⟩
        · rw [if_neg h4]; exact ih _ _ _
      · rw [if_neg h2]; exact ih _ _ _

theorem saLoop_out (ps pcpp : Int) (hps : 1 ≤ ps) : ∀ (fuel : Nat) (final : List Rec)
    (c : List (String × Int)) (later input : List Rec),
    2 * input.length + later.length < fuel →
    ∃ l, saLoop ps pcpp fuel final c later input = .out l := by
  intro fuel
  induction fuel with
  | zero => intro final c later input h; omega
  | succ fuel ih =>
    intro final c later input h
    by_cases he : input.isEmpty ∧ later.isEmpty
    · exact ⟨final, by simp only [saLoop, if_pos he]⟩
    · by_cases hb : final.length ≠ 0 ∧ ((final.length : Int) % ps ≠ 0)
      · refine ⟨final, ?_⟩
        simp only [saLoop, if_neg he, if_neg (show ¬ (0 < final.length ∧ ps = 0) by omega),
          if_pos hb]
      · obtain ⟨out, hout⟩ := inputDrain_isSome ps pcpp (by omega) input
          (laterDrain pcpp 0 later final
            (if 0 < final.length then ([] : List (String × Int)) else c)).1
          (laterDrain pcpp 0 later final
            (if 0 < final.length then ([] : List (String × Int)) else c)).2.1
          (laterDrain pcpp 0 later final
            (if 0 < final.length then ([] : List (String × Int)) else c)).2.2
        have hmeas := inputDrain_measure ps pcpp input _ _ _ out hout
        have hld := laterDrain_size pcpp later 0 final
          (if 0 < final.length then ([] : List (String × Int)) else c)
        have hrec : 2 * out.2.2.2.length + out.2.2.1.length < fuel := by
          by_cases hlat : later = []
          · subst hlat
            have hin : input ≠ [] := by
              intro hin; exact he ⟨List.isEmpty_iff.mpr hin, List.isEmpty_iff.mpr rfl⟩
            have hm := hmeas.2 hin
            have hl1 := hld.1
            simp only [List.length_nil, Nat.le_zero] at hl1
            rw [hl1] at hm
            omega
          · have hlt : 0 < later.length := List.length_pos.mpr hlat
            have hstrict := hld.2 hlt
            have hm := hmeas.1
            omega
        obtain ⟨l, hl⟩ := ih out.1 out.2.1 out.2.2.1 out.2.2.2 hrec
        refine ⟨l, ?_⟩
        simp only [saLoop, if_neg he, if_neg (show ¬ (0 < final.length ∧ ps = 0) by omega),
          if_neg hb]
        rw [show (laterDrain pcpp 0 later final
            (if 0 < final.length then ([] : List (String × Int)) else c))
          = ((laterDrain pcpp 0 later final
            (if 0 < final.length then ([] : List (String × Int)) else c)).1,
             (laterDrain pcpp 0 later final
            (if 0 < final.length then ([] : List (String × Int)) else c)).2.1,
             (laterDrain pcpp 0 later final
            (if 0 < final.length then ([] : List (String × Int)) else c)).2.2) from rfl]
        rw [hout]
        rw [show out = (out.1, out.2.1, out.2.2.1, out.2.2.2) from rfl]
        exact hl

/-- C9.  `searchAhead` terminates on every finite input when
`page_size ≥ 1`: fuel `2*|input|+1` always suffices for the outer loop,
so the model returns a result list. -/
theorem search_ahead_terminates (hits : List Rec) (ps pcpp : Int) (hps : 1 ≤ ps) :
    ∃ l, searchAhead hits ps pcpp = .out l := by
  unfold searchAhead
  exact saLoop_out ps pcpp hps _ [] [] [] hits (by simp only [List.length_nil]; omega)

/-- Witness for C9 at a concrete input. -/
theorem search_ahead_terminates_witness :
    ∃ l, searchAhead [mkRec "A" "a", mkRec "B" "b"] 2 1 = .out l :=
  search_ahead_terminates [mkRec "A" "a", mkRec "B" "b"] 2 1 (by norm_num)

/-! ### C4 amended: the output is a permutation of a sub-multiset of the input -/

theorem laterDrain_multiset (pcpp : Int) : ∀ (later : List Rec) (i : Nat)
    (final : List Rec) (c : List (String × Int)),
    ((laterDrain pcpp i later final c).1 : Multiset Rec)
      + ((laterDrain pcpp i later final c).2.2 : Multiset Rec)
      ≤ (final : Multiset Rec) + (later : Multiset Rec) := by
  intro later
  induction later with
  | nil => intro i final c; simp [laterDrain]
  | cons r rest ih =>
    intro i final c
    by_cases hi : i < (r :: rest).length
    · by_cases hc : pcpp > 0 ∧ clookup c r.channelId < pcpp
      · simp only [laterDrain, if_pos hi, if_pos hc]
        refine le_trans (ih (i + 1) (final ++ [r]) (cbump c r.channelId)) (le_of_eq ?_)
        simp only [← Multiset.coe_add, ← Multiset.cons_coe, ← Multiset.singleton_add]
        abel
      · simp only [laterDrain, if_pos hi, if_neg hc]
        refine le_trans (ih (i + 1) final c) ?_
        simp only [← Multiset.cons_coe, ← Multiset.singleton_add]
        exact add_le_add_left le_add_self _
    · simp only [laterDrain, if_neg hi]
      exact le_refl _

theorem inputDrain_multiset (ps pcpp : Int) : ∀ (input final : List Rec)
    (c : List (String × Int)) (later : List Rec) out,
    inputDrain ps pcpp input final c later = some out →
    (out.1 : Multiset Rec) + (out.2.2.1 : Multiset Rec) + (out.2.2.2 : Multiset Rec)
      ≤ (final : Multiset Rec) + (later : Multiset Rec) + (input : Multiset Rec) := by
  intro input
  induction input with
  | nil =>
    intro final c later out h
    simp only [inputDrain, Option.some.injEq] at h
    subst h
    simp
  | cons hit rest ih =>
    intro final c later out h
    simp only [inputDrain] at h
    by_cases h1 : hit.channelId = "" ∨ pcpp < 0
    · rw [if_pos h1] at h
      refine le_trans (ih (final ++ [hit]) c later out h) (le_of_eq ?_)
      simp only [← Multiset.coe_add, ← Multiset.cons_coe, ← Multiset.singleton_add]
      abel
    · rw [if_neg h1] at h
      by_cases h2 : clookup c hit.channelId < pcpp
      · rw [if_pos h2] at h
        by_cases h3 : ps = 0
        · rw [if_pos h3] at h; exact absurd h (by simp)
        · rw [if_neg h3] at h
          by_cases h4 : (((final ++ [hit]).length : Int) % ps = 0)
          · rw [if_pos h4] at h
            simp only [Option.some.injEq] at h
            subst h
            refine le_of_eq ?_
            simp only [← Multiset.coe_add, ← Multiset.cons_coe, ← Multiset.singleton_add]
            abel
          · rw [if_neg h4] at h
            refine le_trans (ih (final ++ [hit]) (cbump c hit.channelId) later out h)
              (le_of_eq ?_)
            simp only [← Multiset.coe_add, ← Multiset.cons_coe, ← Multiset.singleton_add]
            abel
      · rw [if_neg h2] at h
        refine le_trans (ih final c (later ++ [hit]) out h) (le_of_eq ?_)
        simp only [← Multiset.coe_add, ← Multiset.cons_coe, ← Multiset.singleton_add]
        abel

theorem saLoop_multiset (ps pcpp : Int) : ∀ (fuel : Nat) (final : List Rec)
    (c : List (String × Int)) (later input E : List Rec),
    saLoop ps pcpp fuel final c later input = .out E →
    (E : Multiset Rec) ≤ (final : Multiset Rec) + (later : Multiset Rec)
      + (input : Multiset Rec) := by
  intro fuel
  induction fuel with
  | zero => intro final c later input E h; exact absurd h (by simp [saLoop])
  | succ fuel ih =>
    intro final c later input E h
    simp only [saLoop] at h
    by_cases he : input.isEmpty ∧ later.isEmpty
    · rw [if_pos he] at h
      simp only [SAResult.out.injEq] at h
      subst h
      exact le_add_right (le_add_right (le_refl _))
    · rw [if_neg he] at h
      by_cases hp : 0 < final.length ∧ ps = 0
      · rw [if_pos hp] at h; exact absurd h (by simp)
      · rw [if_neg hp] at h
        by_cases hb : final.length ≠ 0 ∧ ((final.length : Int) % ps ≠ 0)
        · rw [if_pos hb] at h
          simp only [SAResult.out.injEq] at h
          subst h
          exact le_add_right (le_add_right (le_refl _))
        · rw [if_neg hb] at h
          rcases hL : laterDrain pcpp 0 later final
            (if 0 < final.length then ([] : List (String × Int)) else c) with ⟨f₁, c₁, l₁⟩
          rw [hL] at h
          rcases hI : inputDrain ps pcpp input f₁ c₁ l₁ with _ | ⟨f₂, c₂, l₂, i₂⟩
          · rw [hI] at h; exact absurd h (by simp)
          · rw [hI] at h
            have hrec := ih f₂ c₂ l₂ i₂ E h
            have hin := inputDrain_multiset ps pcpp input f₁ c₁ l₁ _ hI
            simp only at hin
            have hlat := laterDrain_multiset pcpp later 0 final
              (if 0 < final.length then ([] : List (String × Int)) else c)
            rw [hL] at hlat
            simp only at hlat
            calc (E : Multiset Rec) ≤ ↑f₂ + ↑l₂ + ↑i₂ := hrec
              _ ≤ (↑f₁ + ↑l₁) + ↑input := hin
              _ ≤ (↑final + ↑later) + ↑input := add_le_add_right hlat _
              _ = ↑final + ↑later + ↑input := rfl

/-- C4 amended.  Whatever `searchAhead` returns consists of input hits,
each occurring no more often than in the input: the output is a
permutation of a sub-multiset of the input.  (It need not be a prefix,
nor order-preserving within a channel: deferred over-cap hits are
discarded, not requeued, and leftover deferred hits can be overtaken.) -/
theorem search_ahead_output_from_input (hits : List Rec) (ps pcpp : Int) (E : List Rec)
    (h : searchAhead hits ps pcpp = .out E) :
    (E : Multiset Rec) ≤ (hits : Multiset Rec) := by
  have := saLoop_multiset ps pcpp (2 * hits.length + 1) [] [] [] hits E h
  simpa using this

/-- Witness for the amended C4 at the concrete counterexample input. -/
theorem search_ahead_output_from_input_witness :
    (c4outA : Multiset Rec) ≤ (c4inpA : Multiset Rec) :=
  search_ahead_output_from_input c4inpA 4 1 c4outA rfl

/-! ### C3 amended: per-channel fairness on aligned pages -/

theorem clookup_cbump (c : List (String × Int)) (ch ch' : String) :
    clookup (cbump c ch) ch' = clookup c ch' + (if ch = ch' then 1 else 0) := by
  induction c with
  | nil =>
    simp only [cbump, clookup]
    by_cases h : ch = ch' <;> simp [h]
  | cons kv rest ih =>
    obtain ⟨k, v⟩ := kv
    simp only [cbump]
    by_cases hk : k = ch
    · subst hk
      simp only [if_pos rfl, clookup]
      by_cases h : k = ch' <;> simp [h]
    · rw [if_neg hk]
      simp only [clookup]
      by_cases h : k = ch'
      · subst h
        have : ¬ ch = k := fun hh => hk hh.symm
        simp [this]
      · simp [h, ih]

/-- The channel occurrence count (as an integer) in a hit list. -/
def chCount (ch : String) (l : List Rec) : Int :=
  (l.countP (fun r => r.channelId == ch) : Int)

theorem chCount_nil (ch : String) : chCount ch [] = 0 := rfl

theorem chCount_cons (ch : String) (r : Rec) (l : List Rec) :
    chCount ch (r :: l) = chCount ch l + (if r.channelId = ch then 1 else 0) := by
  unfold chCount
  rw [List.countP_cons]
  by_cases h : r.channelId = ch <;> simp [h]

theorem chCount_append (ch : String) (l₁ l₂ : List Rec) :
    chCount ch (l₁ ++ l₂) = chCount ch l₁ + chCount ch l₂ := by
  unfold chCount
  rw [List.countP_append]
  push_cast
  ring

theorem chCount_nonneg (ch : String) (l : List Rec) : 0 ≤ chCount ch l :=
  Int.natCast_nonneg _

/-- What the deferred-queue drain does to the output and the counters:
it appends some segment `seg` to `finalHits`, bumps each placed hit's
channel counter once, and never pushes a counter above
`max (its old value) perChannelPerPage`. -/
theorem laterDrain_spec (pcpp : Int) : ∀ (later : List Rec) (i : Nat)
    (final : List Rec) (c : List (String × Int)),
    ∃ seg, (laterDrain pcpp i later final c).1 = final ++ seg ∧
      (∀ ch, clookup (laterDrain pcpp i later final c).2.1 ch
        = clookup c ch + chCount ch seg) ∧
      (∀ ch, clookup (laterDrain pcpp i later final c).2.1 ch
        ≤ max (clookup c ch) pcpp) := by
  intro later
  induction later with
  | nil =>
    intro i final c
    exact ⟨[], by simp [laterDrain], fun ch => by simp [laterDrain, chCount_nil],
      fun ch => by simp [laterDrain]⟩
  | cons r rest ih =>
    intro i final c
    by_cases hi : i < (r :: rest).length
    · by_cases hc : pcpp > 0 ∧ clookup c r.channelId < pcpp
      · obtain ⟨seg', h1, h2, h3⟩ := ih (i + 1) (final ++ [r]) (cbump c r.channelId)
        refine ⟨r :: seg', ?_, ?_, ?_⟩
        · simp only [laterDrain, if_pos hi, if_pos hc]
          rw [h1]
          simp [List.append_assoc]
        · intro ch
          simp only [laterDrain, if_pos hi, if_pos hc]
          rw [h2 ch, clookup_cbump, chCount_cons]
          ring
        · intro ch
          simp only [laterDrain, if_pos hi, if_pos hc]
          refine le_trans (h3 ch) ?_
          rw [clookup_cbump]
          by_cases hch : r.channelId = ch
          · subst hch
            simp only [if_pos rfl]
            omega
          · rw [if_neg hch]
            omega
      · obtain ⟨seg', h1, h2, h3⟩ := ih (i + 1) final c
        refine ⟨seg', ?_, ?_, ?_⟩
        · simp only [laterDrain, if_pos hi, if_neg hc]; exact h1
        · intro ch; simp only [laterDrain, if_pos hi, if_neg hc]; exact h2 ch
        · intro ch; simp only [laterDrain, if_pos hi, if_neg hc]; exact h3 ch
    · refine ⟨[], ?_, ?_, ?_⟩
      · simp only [laterDrain, if_neg hi]
        simp
      · intro ch
        simp only [laterDrain, if_neg hi]
        simp [chCount_nil]
      · intro ch
        simp only [laterDrain, if_neg hi]
        exact le_max_left _ _

/-- What the input drain does to the output and the counters when the
cap is active (`0 ≤ perChannelPerPage`): it appends a segment to
`finalHits`; for every non-empty channel the counter grows by exactly
the number of appended hits of that channel (empty-channel hits bypass
the counters), and no counter exceeds
`max (its old value) perChannelPerPage`. -/
theorem inputDrain_spec (ps pcpp : Int) (hp : 0 ≤ pcpp) : ∀ (input final : List Rec)
    (c : List (String × Int)) (later : List Rec) out,
    inputDrain ps pcpp input final c later = some out →
    ∃ seg, out.1 = final ++ seg ∧
      (∀ ch, ch ≠ "" → clookup out.2.1 ch = clookup c ch + chCount ch seg) ∧
      (∀ ch, clookup out.2.1 ch ≤ max (clookup c ch) pcpp) := by
  intro input
  induction input with
  | nil =>
    intro final c later out h
    simp only [inputDrain, Option.some.injEq] at h
    subst h
    exact ⟨[], by simp, fun ch _ => by simp [chCount_nil], fun ch => by simp⟩
  | cons hit rest ih =>
    intro final c later out h
    simp only [inputDrain] at h
    by_cases h1 : hit.channelId = "" ∨ pcpp < 0
    · rw [if_pos h1] at h
      have hch0 : hit.channelId = "" := h1.resolve_right (by omega)
      obtain ⟨seg', h2, h3, h4⟩ := ih (final ++ [hit]) c later out h
      refine ⟨hit :: seg', ?_, ?_, h4⟩
      · rw [h2]; simp [List.append_assoc]
      · intro ch hch
        rw [h3 ch hch, chCount_cons, hch0, if_neg (fun hh => hch hh.symm)]
        ring
    · rw [if_neg h1] at h
      by_cases h2 : clookup c hit.channelId < pcpp
      · rw [if_pos h2] at h
        by_cases h3 : ps = 0
        · rw [if_pos h3] at h; exact absurd h (by simp)
        · rw [if_neg h3] at h
          by_cases h4 : (((final ++ [hit]).length : Int) % ps = 0)
          · rw [if_pos h4] at h
            simp only [Option.some.injEq] at h
            subst h
            refine ⟨[hit], by simp, ?_, ?_⟩
            · intro ch hch
              simp only [clookup_cbump, chCount_cons, chCount_nil]
              ring
            · intro ch
              simp only [clookup_cbump]
              by_cases hch : hit.channelId = ch
              · rw [if_pos hch]
                rw [hch] at h2
                omega
              · rw [if_neg hch]
                omega
          · rw [if_neg h4] at h
            obtain ⟨seg', h5, h6, h7⟩ := ih (final ++ [hit]) (cbump c hit.channelId) later out h
            refine ⟨hit :: seg', ?_, ?_, ?_⟩
            · rw [h5]; simp [List.append_assoc]
            · intro ch hch
              rw [h6 ch hch, clookup_cbump, chCount_cons]
              ring
            · intro ch
              refine le_trans (h7 ch) ?_
              rw [clookup_cbump]
              by_cases hch : hit.channelId = ch
              · subst hch
                rw [if_pos rfl]
                omega
              · rw [if_neg hch]
                omega
      · rw [if_neg h2] at h
        obtain ⟨seg', h5, h6, h7⟩ := ih final c (later ++ [hit]) out h
        exact ⟨seg', h5, h6, h7⟩

/-- Every aligned page of `l` (the `i`-th block of `psn` consecutive
items) contains each non-empty channel at most `pcpp` times. -/
def pagesOK (psn : Nat) (pcpp : Int) (l : List Rec) : Prop :=
  ∀ (i : Nat) (ch : String), ch ≠ "" → chCount ch ((l.drop (psn * i)).take psn) ≤ pcpp

theorem pagesOK_nil (psn : Nat) (pcpp : Int) (hpc : 0 ≤ pcpp) : pagesOK psn pcpp [] := by
  intro i ch _
  simp [chCount_nil]
  exact hpc

theorem chCount_sublist (ch : String) {l₁ l₂ : List Rec} (h : l₁.Sublist l₂) :
    chCount ch l₁ ≤ chCount ch l₂ := by
  unfold chCount
  exact_mod_cast h.countP_le _

/-- If the whole list respects the per-channel bound, so does each of
its aligned pages. -/
theorem pagesOK_of_total (psn : Nat) (pcpp : Int) (l : List Rec)
    (h : ∀ ch, ch ≠ "" → chCount ch l ≤ pcpp) : pagesOK psn pcpp l := by
  intro i ch hch
  refine le_trans (chCount_sublist ch ?_) (h ch hch)
  exact ((List.take_sublist _ _).trans (List.drop_sublist _ _))

/-- Aligned pages of `seg ++ rest` decompose when `seg` covers whole
pages: each page lies inside `seg` or inside `rest`. -/
theorem pagesOK_append (psn : Nat) (pcpp : Int) (seg rest : List Rec) (q : Nat)
    (hpsn : 0 < psn) (hseg : seg.length = psn * q)
    (hsegOK : ∀ ch, ch ≠ "" → chCount ch seg ≤ pcpp)
    (hrest : pagesOK psn pcpp rest) : pagesOK psn pcpp (seg ++ rest) := by
  intro i ch hch
  by_cases hi : psn * i < seg.length
  · have hiq : i < q := by
      rw [hseg] at hi
      exact Nat.lt_of_mul_lt_mul_left hi
    have hlen : psn ≤ (seg.drop (psn * i)).length := by
      rw [List.length_drop, hseg]
      have : psn * (i + 1) ≤ psn * q := Nat.mul_le_mul_left _ hiq
      have : psn * i + psn ≤ psn * q := by
        rw [Nat.mul_add, Nat.mul_one] at this
        exact this
      omega
    have hdrop : (seg ++ rest).drop (psn * i) = seg.drop (psn * i) ++ rest := by
      rw [List.drop_append_eq_append_drop, Nat.sub_eq_zero_of_le (le_of_lt hi), List.drop_zero]
    have htake : ((seg ++ rest).drop (psn * i)).take psn = (seg.drop (psn * i)).take psn := by
      rw [hdrop, List.take_append_eq_append_take, Nat.sub_eq_zero_of_le hlen,
        List.take_zero, List.append_nil]
    rw [htake]
    refine le_trans (chCount_sublist ch ?_) (hsegOK ch hch)
    exact ((List.take_sublist _ _).trans (List.drop_sublist _ _))
  · have hge : seg.length ≤ psn * i := le_of_not_lt hi
    have hdrop : (seg ++ rest).drop (psn * i) = rest.drop (psn * (i - q)) := by
      rw [List.drop_append_eq_append_drop, List.drop_of_length_le hge, List.nil_append]
      congr 1
      rw [hseg]
      have hqi : q ≤ i := by
        by_contra hqi
        push_neg at hqi
        have : psn * i < psn * q := mul_lt_mul_of_pos_left hqi hpsn
        omega
      rw [Nat.mul_sub]
    rw [hdrop]
    exact hrest (i - q) ch hch

/-- `(n : Int) % ps = 0` matches `n % ps.toNat = 0` for positive `ps`. -/
theorem int_mod_toNat (n : Nat) (ps : Int) (hps : 1 ≤ ps) :
    ((n : Int) % ps = 0) ↔ n % ps.toNat = 0 := by
  obtain ⟨m, rfl⟩ : ∃ m : Nat, ps = (m : Int) :=
    ⟨ps.toNat, (Int.toNat_of_nonneg (by omega)).symm⟩
  simp only [Int.toNat_natCast]
  omega

/-- Aligned-page fairness invariant of the outer loop: a call that
starts at a page boundary, with counters that are all zero in case
nothing was emitted yet, appends a suffix whose aligned pages respect
the per-channel cap. -/
theorem saLoop_pages (ps pcpp : Int) (hps : 1 ≤ ps) (hpc : 1 ≤ pcpp) :
    ∀ (fuel : Nat) (final : List Rec) (c : List (String × Int)) (later input E : List Rec),
    saLoop ps pcpp fuel final c later input = .out E →
    final.length % ps.toNat = 0 →
    (final = [] → ∀ ch, ch ≠ "" → clookup c ch = 0) →
    ∃ seg, E = final ++ seg ∧ pagesOK ps.toNat pcpp seg := by
  intro fuel
  induction fuel using Nat.strong_induction_on with
  | _ fuel ih =>
    intro final c later input E h hbd hz
    rcases fuel with _ | f1
    · exact absurd h (by simp [saLoop])
    simp only [saLoop] at h
    by_cases he : input.isEmpty ∧ later.isEmpty
    · rw [if_pos he] at h
      simp only [SAResult.out.injEq] at h
      refine ⟨[], ?_, pagesOK_nil _ _ (by omega)⟩
      rw [← h]; simp
    rw [if_neg he, if_neg (show ¬ (0 < final.length ∧ ps = 0) by omega)] at h
    by_cases hb : final.length ≠ 0 ∧ ((final.length : Int) % ps ≠ 0)
    · rw [if_pos hb] at h
      simp only [SAResult.out.injEq] at h
      refine ⟨[], ?_, pagesOK_nil _ _ (by omega)⟩
      rw [← h]; simp
    rw [if_neg hb] at h
    rcases hL : laterDrain pcpp 0 later final
        (if 0 < final.length then ([] : List (String × Int)) else c) with ⟨f₁, c₁, l₁⟩
    rw [hL] at h
    simp only at h
    rcases hI : inputDrain ps pcpp input f₁ c₁ l₁ with _ | out
    · rw [hI] at h
      simp only at h
      exact absurd h (by simp)
    obtain ⟨f₂, c₂, l₂, i₂⟩ := out
    rw [hI] at h
    simp only at h
    -- effect of the two drains on output and counters
    obtain ⟨segA, hA1, hA2, hA3⟩ := laterDrain_spec pcpp later 0 final
      (if 0 < final.length then ([] : List (String × Int)) else c)
    rw [hL] at hA1 hA2 hA3
    have hA1' : f₁ = final ++ segA := hA1
    have hA2' : ∀ ch, clookup c₁ ch
        = clookup (if 0 < final.length then ([] : List (String × Int)) else c) ch
          + chCount ch segA := hA2
    have hA3' : ∀ ch, clookup c₁ ch
        ≤ max (clookup (if 0 < final.length then ([] : List (String × Int)) else c) ch)
          pcpp := hA3
    obtain ⟨segB, hB1, hB2, hB3⟩ :=
      inputDrain_spec ps pcpp (by omega) input f₁ c₁ l₁ (f₂, c₂, l₂, i₂) hI
    have hB1' : f₂ = f₁ ++ segB := hB1
    have hB2' : ∀ ch, ch ≠ "" → clookup c₂ ch = clookup c₁ ch + chCount ch segB := hB2
    have hB3' : ∀ ch, clookup c₂ ch ≤ max (clookup c₁ ch) pcpp := hB3
    -- the reset-or-zero counters at the start of the round
    have hc0 : ∀ ch, ch ≠ "" →
        clookup (if 0 < final.length then ([] : List (String × Int)) else c) ch = 0 := by
      intro ch hch
      by_cases hf : 0 < final.length
      · rw [if_pos hf]; rfl
      · rw [if_neg hf]
        exact hz (by simpa using List.length_eq_zero.mp (by omega)) ch hch
    -- per-round per-channel bound
    have hcap1 : ∀ ch, ch ≠ "" → clookup c₁ ch ≤ pcpp := by
      intro ch hch
      have hm := hA3' ch
      rw [hc0 ch hch, max_eq_right (by omega : (0 : Int) ≤ pcpp)] at hm
      exact hm
    have hcap2 : ∀ ch, ch ≠ "" → clookup c₂ ch ≤ pcpp := by
      intro ch hch
      refine le_trans (hB3' ch) (max_le (hcap1 ch hch) (le_refl _))
    have hcount : ∀ ch, ch ≠ "" → chCount ch (segA ++ segB) = clookup c₂ ch := by
      intro ch hch
      rw [chCount_append, hB2' ch hch, hA2' ch, hc0 ch hch]
      ring
    have hsegOK : ∀ ch, ch ≠ "" → chCount ch (segA ++ segB) ≤ pcpp := by
      intro ch hch
      rw [hcount ch hch]
      exact hcap2 ch hch
    -- case on the recursive call (one more level of the loop)
    rcases f1 with _ | f2lvl
    · exact absurd h (by simp [saLoop])
    have hcall := h
    simp only [saLoop] at hcall
    by_cases he₂ : i₂.isEmpty ∧ l₂.isEmpty
    · rw [if_pos he₂] at hcall
      simp only [SAResult.out.injEq] at hcall
      refine ⟨segA ++ segB, ?_, pagesOK_of_total _ _ _ hsegOK⟩
      rw [← hcall, hB1', hA1']
      simp [List.append_assoc]
    rw [if_neg he₂, if_neg (show ¬ (0 < f₂.length ∧ ps = 0) by omega)] at hcall
    by_cases hb₂ : f₂.length ≠ 0 ∧ ((f₂.length : Int) % ps ≠ 0)
    · rw [if_pos hb₂] at hcall
      simp only [SAResult.out.injEq] at hcall
      refine ⟨segA ++ segB, ?_, pagesOK_of_total _ _ _ hsegOK⟩
      rw [← hcall, hB1', hA1']
      simp [List.append_assoc]
    -- the callee continues: its entry state is at a page boundary
    have hbd₂ : f₂.length % ps.toNat = 0 := by
      push_neg at hb₂
      by_cases hf2 : f₂.length = 0
      · rw [hf2]; simp
      · exact (int_mod_toNat _ ps hps).mp (hb₂ hf2)
    have hz₂ : f₂ = [] → ∀ ch, ch ≠ "" → clookup c₂ ch = 0 := by
      intro hf2 ch hch
      rw [hB1', hA1'] at hf2
      rw [List.append_assoc] at hf2
      have h1 := List.append_eq_nil.mp hf2
      have h2 := List.append_eq_nil.mp h1.2
      have hcnt := hcount ch hch
      rw [h2.1, h2.2] at hcnt
      simp only [List.append_nil, chCount_nil] at hcnt
      omega
    obtain ⟨seg', hE', hpages'⟩ := ih (f2lvl + 1) (by omega) f₂ c₂ l₂ i₂ E h hbd₂ hz₂
    refine ⟨(segA ++ segB) ++ seg', ?_, ?_⟩
    · rw [hE', hB1', hA1']
      simp [List.append_assoc]
    · have hdvd : ps.toNat ∣ (segA ++ segB).length := by
        have d1 : ps.toNat ∣ final.length := Nat.dvd_of_mod_eq_zero hbd
        have d2 : ps.toNat ∣ f₂.length := Nat.dvd_of_mod_eq_zero hbd₂
        have hlen2 : f₂.length = final.length + (segA ++ segB).length := by
          rw [hB1', hA1']
          simp [List.append_assoc]
        rw [hlen2] at d2
        have := Nat.dvd_sub' d2 d1
        simpa using this
      obtain ⟨q, hq⟩ := hdvd
      exact pagesOK_append _ _ _ _ q (by omega) hq hsegOK hpages'

/-- C3 amended.  When `page_size ≥ 1` and `per_channel_per_page ≥ 1`,
every *aligned* page of the output — the block of `page_size`
consecutive items starting at position `page_size * i` — contains each
non-empty channel at most `per_channel_per_page` times.  (The cap does
not hold for arbitrary sliding windows, which may straddle a page
boundary where the counters reset.) -/
theorem search_ahead_page_fairness (hits : List Rec) (ps pcpp : Int) (E : List Rec)
    (hps : 1 ≤ ps) (hpc : 1 ≤ pcpp) (h : searchAhead hits ps pcpp = .out E) :
    ∀ (i : Nat) (ch : String), ch ≠ "" →
      chCount ch ((E.drop (ps.toNat * i)).take ps.toNat) ≤ pcpp := by
  obtain ⟨seg, hE, hpages⟩ := saLoop_pages ps pcpp hps hpc (2 * hits.length + 1)
    [] [] [] hits E h (by simp) (fun _ ch _ => rfl)
  rw [hE]
  simpa using hpages

/-- Witness for the amended C3: first page of the counterexample run. -/
theorem search_ahead_page_fairness_witness :
    chCount "one" ((c3inp.drop ((3 : Int).toNat * 0)).take (3 : Int).toNat) ≤ 1 :=
  search_ahead_page_fairness c3inp 3 1 c3inp (by norm_num) (by norm_num) rfl 0 "one"
    (by decide)

/-! ### Order facts about `lexLtB` used by the iteration engine -/

theorem lexLtB_nil_left (c : Nat) (l : Bytes) : lexLtB [] (c :: l) = true := rfl

theorem lexLtB_nil_right (a : Bytes) : lexLtB a [] = false := by
  cases a <;> rfl

theorem lexLtB_irrefl (a : Bytes) : lexLtB a a = false := by
  induction a with
  | nil => rfl
  | cons x xs ih => simp [lexLtB, ih]

theorem lexLtB_trans {a b c : Bytes} (h1 : lexLtB a b = true) (h2 : lexLtB b c = true) :
    lexLtB a c = true := by
  induction a generalizing b c with
  | nil =>
    rcases c with _ | ⟨z, zs⟩
    · rw [lexLtB_nil_right] at h2; exact absurd h2 (by simp)
    · rfl
  | cons x xs ih =>
    rcases b with _ | ⟨y, ys⟩
    · rw [lexLtB_nil_right] at h1; exact absurd h1 (by simp)
    rcases c with _ | ⟨z, zs⟩
    · rw [lexLtB_nil_right] at h2; exact absurd h2 (by simp)
    rw [lexLtB_cons] at h1 h2 ⊢
    rcases h1 with h1 | ⟨h1e, h1t⟩ <;> rcases h2 with h2 | ⟨h2e, h2t⟩
    · exact Or.inl (lt_trans h1 h2)
    · exact Or.inl (h2e ▸ h1)
    · exact Or.inl (h1e ▸ h2)
    · exact Or.inr ⟨h1e.trans h2e, ih h1t h2t⟩

theorem lexLtB_antisymm {a b : Bytes} (h1 : lexLtB a b = false) (h2 : lexLtB b a = false) :
    a = b := by
  induction a generalizing b with
  | nil =>
    rcases b with _ | ⟨y, ys⟩
    · rfl
    · rw [lexLtB_nil_left] at h1
      exact absurd h1 (by simp)
  | cons x xs ih =>
    rcases b with _ | ⟨y, ys⟩
    · rw [lexLtB_nil_left] at h2; simp at h2
    · have h1' : ¬ (x < y ∨ (x = y ∧ lexLtB xs ys = true)) := by
        rw [← lexLtB_cons]; simp [h1]
      have h2' : ¬ (y < x ∨ (y = x ∧ lexLtB ys xs = true)) := by
        rw [← lexLtB_cons]; simp [h2]
      push_neg at h1' h2'
      have hxy : x = y := by
        have := h1'.1
        have := h2'.1
        omega
      subst hxy
      have ht1 : lexLtB xs ys = false := Bool.eq_false_iff.mpr (h1'.2 rfl)
      have ht2 : lexLtB ys xs = false := Bool.eq_false_iff.mpr (h2'.2 rfl)
      rw [ih ht1 ht2]

theorem isPrefixOf_not_lexLtB {p k : Bytes} (h : p.isPrefixOf k = true) :
    lexLtB k p = false := by
  induction p generalizing k with
  | nil => exact lexLtB_nil_right k
  | cons x ps ih =>
    rcases k with _ | ⟨y, ks⟩
    · exact Bool.noConfusion h
    · simp only [List.isPrefixOf, Bool.and_eq_true, beq_iff_eq] at h
      obtain ⟨rfl, ht⟩ := h
      rw [Bool.eq_false_iff]
      intro hcon
      rw [lexLtB_cons] at hcon
      rcases hcon with hc | ⟨_, hc⟩
      · exact lt_irrefl _ hc
      · rw [ih ht] at hc
        exact Bool.noConfusion hc

theorem lexLtB_take_mono {a k : Bytes} (n : Nat) (h : lexLtB (k.take n) (a.take n) = true) :
    lexLtB k a = true := by
  induction n generalizing a k with
  | zero => simp [lexLtB] at h
  | succ n ih =>
    rcases k with _ | ⟨y, ks⟩
    · rcases a with _ | ⟨x, as⟩
      · simp [lexLtB] at h
      · rfl
    · rcases a with _ | ⟨x, as⟩
      · simp only [List.take_nil, lexLtB_nil_right] at h; exact absurd h (by simp)
      · simp only [List.take_succ_cons, lexLtB_cons] at h ⊢
        rcases h with h | ⟨he, ht⟩
        · exact Or.inl h
        · exact Or.inr ⟨he, ih ht⟩

/-! ### The iteration engine (db/db.go, `Iter`)

The underlying RocksDB store is modelled as the sorted list of its keys
(strictly increasing in `lexLtB`).  `Seek(t)` positions the iterator at
the first key not below `t`; `Next()` moves one key forward and stays
exhausted once past the end; reading `Key()` from an exhausted iterator
yields the empty byte string.  The emitted sequence records the keys of
the yielded `PrefixRowKV` pairs (`IncludeKey`/`IncludeValue` only select
which buffers are copied into a pair, `FillCache` is a read option —
neither changes which rows are visited). -/

/-- The options consulted by `Iter`: the row's `Prefix` together with
`Start`, `Stop`, `IncludeStart`, `IncludeStop` of `IterOptions`. -/
structure IterCfg where
  pfx : Option Bytes
  start : Option Bytes
  stop : Option Bytes
  includeStart : Bool
  includeStop : Bool

/-- The last two branches of the `stopIteration` closure (db/db.go:
243-248): the `Start` reverse test (whose slice `key[:len(Start)]`
panics — `.error` — on a key shorter than `Start`), then the `Prefix`
containment test. -/
def stopIterStart (cfg : IterCfg) (key : Bytes) : Except Unit Bool :=
  match cfg.start with
  | some s =>
    if key.length < s.length then .error ()
    else if lexLtB (key.take s.length) s then .ok true
    else
      match cfg.pfx with
      | some p => if p.isPrefixOf key then .ok false else .ok true
      | none => .ok false
  | none =>
    match cfg.pfx with
    | some p => if p.isPrefixOf key then .ok false else .ok true
    | none => .ok false

/-- Go `stopIteration(key)` (db/db.go:235-251): `nil` never stops; a
set `Stop` stops when it is a prefix of the key or below the key's
truncation to its length (the slice panics — `.error` — on a shorter
key); then the `Start` and `Prefix` tests. -/
def stopIterationGo (cfg : IterCfg) : Option Bytes → Except Unit Bool
  | none => .ok false
  | some key =>
    match cfg.stop with
    | some t =>
      if t.isPrefixOf key then .ok true
      else if key.length < t.length then .error ()
      else if lexLtB t (key.take t.length) then .ok true
      else stopIterStart cfg key
    | none => stopIterStart cfg key

/-- Result of a run of `Iter`'s producer goroutine: the emitted key
sequence on clean termination, a slice-out-of-range panic, or an
infinite loop re-reading the exhausted iterator (reachable only with no
`Stop`, no `Start` and no `Prefix`). -/
inductive IterResult where
  | emits : List Bytes → IterResult
  | panics : IterResult
  | hangs : IterResult
deriving DecidableEq, Repr

/-- One loop iteration at the exhausted iterator with `prevKey` the
empty key: the checks settle the run's fate (a further pass would
repeat this state exactly). -/
def endReached (cfg : IterCfg) : IterResult :=
  match stopIterationGo cfg (some []) with
  | .error _ => .panics
  | .ok true => .emits []
  | .ok false => .hangs

/-- The `for ; !stopIteration(prevKey); it.Next()` loop of `Iter`
(db/db.go:261-301) over the remaining keys, carrying `prevKey`. -/
def iterLoop (cfg : IterCfg) : List Bytes → Option Bytes → IterResult
  | [], prev =>
    match stopIterationGo cfg prev with
    | .error _ => .panics
    | .ok true => .emits []
    | .ok false =>
      if cfg.includeStop then
        match endReached cfg with
        | .emits l => .emits ([] :: l)
        | r => r
      else
        match stopIterationGo cfg (some []) with
        | .error _ => .panics
        | .ok true => .emits []
        | .ok false =>
          match endReached cfg with
          | .emits l => .emits ([] :: l)
          | r => r
  | key :: rest, prev =>
    match stopIterationGo cfg prev with
    | .error _ => .panics
    | .ok true => .emits []
    | .ok false =>
      if cfg.includeStop then
        match iterLoop cfg rest (some key) with
        | .emits l => .emits (key :: l)
        | r => r
      else
        match stopIterationGo cfg (some key) with
        | .error _ => .panics
        | .ok true => .emits []
        | .ok false =>
          match iterLoop cfg rest (some key) with
          | .emits l => .emits (key :: l)
          | r => r

/-- The suffix of the sorted store at or after the seek target. -/
def seekKeys (s : List Bytes) (target : Bytes) : List Bytes :=
  s.dropWhile (fun k => lexLtB k target)

/-- Go `(*PrefixRow).Iter(options)` (db/db.go:220-305) over a sorted
store: seek to the row prefix, re-seek to `Start` when given, advance
once when `IncludeStart` is false, then run the loop. -/
def IterGo (cfg : IterCfg) (store : List Bytes) : IterResult :=
  let target := match cfg.start with
    | some s => s
    | none => match cfg.pfx with
      | some p => p
      | none => []
  let afterSeek := seekKeys store target
  let afterAdv := if cfg.includeStart then afterSeek else afterSeek.tail
  iterLoop cfg afterAdv none

/-- The combined condition under which `stopIteration` reports true on
a key long enough for its slices: `Stop` is a prefix of the key or
below its truncation, or the key escapes the row `Prefix`.  (The
`Start` reverse test never fires on keys at or after the seek point.) -/
def stopCondB (cfg : IterCfg) (k : Bytes) : Bool :=
  (match cfg.stop with
   | some t => t.isPrefixOf k || lexLtB t (k.take t.length)
   | none => false) ||
  (match cfg.pfx with
   | some p => !(p.isPrefixOf k)
   | none => false)

/-- C10.  The `stopIteration` closure slices each visited key to
`len(Stop)` and `len(Start)` without a length guard.  On any key at
least as long as both bounds the out-of-range branch is unreachable:
the check returns a verdict and never faults.  The precondition is not
checked: on a key shorter than a configured bound the very same check
faults (second conjunct, a concrete two-byte stop against a one-byte
key). -/
theorem stop_iteration_no_fault :
    (∀ (cfg : IterCfg) (key : Bytes),
      (∀ t, cfg.stop = some t → t.length ≤ key.length) →
      (∀ s, cfg.start = some s → s.length ≤ key.length) →
      ∃ b, stopIterationGo cfg (some key) = .ok b) ∧
    stopIterationGo ⟨some [117], none, some [117, 0], true, false⟩ (some [117])
      = .error () := by
  constructor
  · intro cfg key hstop hstart
    obtain ⟨pfxO, startO, stopO, incS, incT⟩ := cfg
    simp only at hstop hstart
    have hpart : ∃ b, stopIterStart ⟨pfxO, startO, stopO, incS, incT⟩ key = Except.ok b := by
      rcases startO with _ | s
      · rcases pfxO with _ | p
        · exact ⟨false, rfl⟩
        · by_cases hp : p.isPrefixOf key
          · exact ⟨false, by simp only [stopIterStart]; rw [if_pos hp]⟩
          · exact ⟨true, by simp only [stopIterStart]; rw [if_neg hp]⟩
      · have hlen : ¬ key.length < s.length := by
          push_neg
          exact hstart s rfl
        by_cases hlt : lexLtB (key.take s.length) s
        · exact ⟨true, by simp only [stopIterStart]; rw [if_neg hlen, if_pos hlt]⟩
        · rcases pfxO with _ | p
          · exact ⟨false, by simp only [stopIterStart]; rw [if_neg hlen, if_neg hlt]⟩
          · by_cases hp : p.isPrefixOf key
            · exact ⟨false, by
                simp only [stopIterStart]
                rw [if_neg hlen, if_neg hlt, if_pos hp]⟩
            · exact ⟨true, by
                simp only [stopIterStart]
                rw [if_neg hlen, if_neg hlt, if_neg hp]⟩
    rcases stopO with _ | t
    · simpa only [stopIterationGo] using hpart
    · by_cases hpre : t.isPrefixOf key
      · exact ⟨true, by simp only [stopIterationGo]; rw [if_pos hpre]⟩
      · have hlen : ¬ key.length < t.length := by
          push_neg
          exact hstop t rfl
        by_cases hlt : lexLtB t (key.take t.length)
        · exact ⟨true, by
            simp only [stopIterationGo]
            rw [if_neg hpre, if_neg hlen, if_pos hlt]⟩
        · obtain ⟨b, hb⟩ := hpart
          exact ⟨b, by
            simp only [stopIterationGo]
            rw [if_neg hpre, if_neg hlen, if_neg hlt]
            exact hb⟩
  · rfl

/-- Witness for C10 at a concrete key and bounds. -/
theorem stop_iteration_no_fault_witness :
    ∃ b, stopIterationGo ⟨some [117], some [117, 0], some [117, 9], true, false⟩
      (some [117, 3]) = .ok b :=
  stop_iteration_no_fault.1 ⟨some [117], some [117, 0], some [117, 9], true, false⟩
    [117, 3] (by intro t ht; cases ht; decide) (by intro s hs; cases hs; decide)

/-! ### C2: what `Iter` actually emits -/

/-- C2 counterexample.  Store `{[117,5], [200,0]}`, prefix `[117]`,
start `[117,0]`, no stop, `include_start = false`: the key `[117,5]`
carries the prefix and lies strictly after the start, so the claim's
bound-set is `{[117,5]}`; but the code advances once unconditionally
after seeking (even though the seek landed on `[117,5]`, not on the
absent start key), skips it, and emits nothing. -/
theorem iter_unconditional_advance_skips :
    IterGo ⟨some [117], some [117, 0], none, false, false⟩ [[117, 5], [200, 0]]
      = .emits [] ∧
    lexLtB [117, 0] [117, 5] = true ∧
    [117].isPrefixOf [117, 5] = true := by
  refine ⟨rfl, rfl, rfl⟩

theorem lexLtB_asymm {a b : Bytes} (h : lexLtB a b = true) : lexLtB b a = false := by
  rw [Bool.eq_false_iff]
  intro hc
  have := lexLtB_trans h hc
  rw [lexLtB_irrefl] at this
  exact Bool.noConfusion this

theorem take_len_not_lt {k s : Bytes} (h : lexLtB k s = false) :
    lexLtB (k.take s.length) s = false := by
  rw [Bool.eq_false_iff]
  intro hc
  have hc' : lexLtB (k.take s.length) (s.take s.length) = true := by
    rw [List.take_length]
    exact hc
  have := lexLtB_take_mono s.length hc'
  rw [h] at this
  exact Bool.noConfusion this

/-- On a key long enough for both bounds whose truncation is not below
`Start`, the `stopIteration` closure computes exactly `stopCondB`. -/
theorem stopIterationGo_eval (cfg : IterCfg) (key : Bytes)
    (hstoplen : ∀ t, cfg.stop = some t → t.length ≤ key.length)
    (hstartle : ∀ s, cfg.start = some s →
      s.length ≤ key.length ∧ lexLtB (key.take s.length) s = false) :
    stopIterationGo cfg (some key) = .ok (stopCondB cfg key) := by
  obtain ⟨pfxO, startO, stopO, incS, incT⟩ := cfg
  simp only at hstoplen hstartle
  have hpart : stopIterStart ⟨pfxO, startO, stopO, incS, incT⟩ key
      = .ok (match pfxO with
             | some p => !(p.isPrefixOf key)
             | none => false) := by
    rcases startO with _ | s
    · rcases pfxO with _ | p
      · rfl
      · by_cases hp : p.isPrefixOf key
        · simp only [stopIterStart]
          rw [if_pos hp, hp]
          rfl
        · simp only [stopIterStart]
          rw [if_neg hp, Bool.eq_false_iff.mpr hp]
          rfl
    · obtain ⟨hsl, hst⟩ := hstartle s rfl
      simp only [stopIterStart]
      rw [if_neg (by omega), if_neg (by rw [hst]; simp)]
      rcases pfxO with _ | p
      · rfl
      · show (if p.isPrefixOf key = true then Except.ok false else Except.ok true)
          = Except.ok (!(p.isPrefixOf key))
        by_cases hp : p.isPrefixOf key
        · rw [if_pos hp, hp]; rfl
        · rw [if_neg hp, Bool.eq_false_iff.mpr hp]; rfl
  rcases stopO with _ | t
  · simp only [stopIterationGo, stopCondB]
    rw [hpart]
    simp
  · simp only [stopIterationGo, stopCondB]
    by_cases hpre : t.isPrefixOf key
    · rw [if_pos hpre, hpre]
      rfl
    · rw [if_neg hpre, if_neg (by push_neg; exact hstoplen t rfl),
        Bool.eq_false_iff.mpr hpre]
      by_cases hlt : lexLtB t (key.take t.length)
      · rw [if_pos hlt, hlt]
        rfl
      · rw [if_neg hlt, Bool.eq_false_iff.mpr hlt, hpart]
        simp

/-- In a sorted store, every key surviving the seek is at or after the
seek target. -/
theorem seekKeys_not_lt (s : List Bytes) (t : Bytes)
    (hs : s.Pairwise (fun a b => lexLtB a b = true)) :
    ∀ k ∈ seekKeys s t, lexLtB k t = false := by
  induction s with
  | nil => intro k hk; simp [seekKeys] at hk
  | cons a s ih =>
    intro k hk
    by_cases ha : lexLtB a t
    · rw [seekKeys, List.dropWhile_cons_of_pos (by simpa using ha)] at hk
      exact ih hs.tail k hk
    · rw [seekKeys, List.dropWhile_cons_of_neg (by simpa using ha)] at hk
      rcases List.mem_cons.mp hk with rfl | hk'
      · exact Bool.eq_false_iff.mpr ha
      · rw [Bool.eq_false_iff]
        intro hc
        have hak := (List.pairwise_cons.mp hs).1 k hk'
        have := lexLtB_trans hak hc
        exact ha (by exact this)

/-- A key at or after the target is kept by the seek. -/
theorem mem_seekKeys_of_not_lt (s : List Bytes) (t : Bytes) :
    ∀ k ∈ s, lexLtB k t = false → k ∈ seekKeys s t := by
  induction s with
  | nil => intro k hk; simp at hk
  | cons a s ih =>
    intro k hk hkt
    by_cases ha : lexLtB a t
    · rw [seekKeys, List.dropWhile_cons_of_pos (by simpa using ha)]
      rcases List.mem_cons.mp hk with rfl | hk'
      · rw [ha] at hkt; exact Bool.noConfusion hkt
      · exact ih k hk' hkt
    · rw [seekKeys, List.dropWhile_cons_of_neg (by simpa using ha)]
      exact hk

/-- A proper extension of `p` is strictly below any key that is at or
above `p` without carrying it as a prefix. -/
theorem ext_lt {p a : Bytes} (hnp : p.isPrefixOf a = false) (hle : lexLtB a p = false) :
    ∀ k, p.isPrefixOf k = true → lexLtB k a = true := by
  induction p generalizing a with
  | nil => exact absurd hnp (by simp [List.isPrefixOf])
  | cons x ps ih =>
    intro k hk
    rcases a with _ | ⟨y, as⟩
    · rw [lexLtB_nil_left] at hle
      exact Bool.noConfusion hle
    rcases k with _ | ⟨z, ks⟩
    · exact Bool.noConfusion hk
    simp only [List.isPrefixOf, Bool.and_eq_true, beq_iff_eq] at hk
    obtain ⟨rfl, hks⟩ := hk
    have hle' : ¬ (y < x ∨ (y = x ∧ lexLtB as ps = true)) := by
      rw [← lexLtB_cons]
      simp [hle]
    push_neg at hle'
    rcases Nat.lt_trichotomy x y with hxy | hxy | hxy
    · rw [lexLtB_cons]
      exact Or.inl hxy
    · subst hxy
      have hnp' : ps.isPrefixOf as = false := by
        rw [Bool.eq_false_iff]
        intro hc
        rw [Bool.eq_false_iff] at hnp
        exact hnp (by simp [List.isPrefixOf, hc])
      have has : lexLtB as ps = false := Bool.eq_false_iff.mpr (hle'.2 rfl)
      rw [lexLtB_cons]
      exact Or.inr ⟨rfl, ih hnp' has ks hks⟩
    · exact absurd hxy (not_lt.mpr hle'.1)

/-- Once a key in the scanned (sorted, at-or-after-the-seek) region
triggers the stop test, every later key does too. -/
theorem stopCond_mono (cfg : IterCfg) (p seff : Bytes) (hpfx : cfg.pfx = some p)
    (hext : p.isPrefixOf seff = true) (a k : Bytes)
    (hklen : ∀ t, cfg.stop = some t → t.length ≤ k.length)
    (ha_ge : lexLtB a seff = false)
    (hak : lexLtB a k = true ∨ a = k)
    (hstop : stopCondB cfg a = true) : stopCondB cfg k = true := by
  rcases hak with hak | rfl
  swap
  · exact hstop
  have hka : lexLtB k a = false := lexLtB_asymm hak
  rw [stopCondB, hpfx] at hstop ⊢
  simp only [Bool.or_eq_true] at hstop ⊢
  rcases hstop with hstop | hstop
  · -- the Stop bound fired on a
    left
    rcases hts : cfg.stop with _ | t
    · rw [hts] at hstop
      exact Bool.noConfusion hstop
    rw [hts] at hstop
    simp only [Bool.or_eq_true] at hstop ⊢
    have htake : lexLtB (k.take t.length) (a.take t.length) = false := by
      rw [Bool.eq_false_iff]
      intro hc
      have := lexLtB_take_mono t.length hc
      rw [hka] at this
      exact Bool.noConfusion this
    rcases hstop with hstop | hstop
    · -- t is a prefix of a, so t = a.take |t| ≤ k.take |t|
      have hta : t = a.take t.length := by
        have := List.prefix_iff_eq_take.mp (List.isPrefixOf_iff_prefix.mp hstop)
        exact this
      by_cases hlt : lexLtB t (k.take t.length)
      · exact Or.inr hlt
      · left
        have hkt : lexLtB (k.take t.length) t = false := by
          nth_rewrite 2 [hta]
          exact htake
        have := lexLtB_antisymm (Bool.eq_false_iff.mpr hlt) hkt
        rw [List.isPrefixOf_iff_prefix, List.prefix_iff_eq_take]
        exact this
    · -- t < a.take |t| ≤ k.take |t|
      right
      by_cases heq : a.take t.length = k.take t.length
      · rw [← heq]
        exact hstop
      · have : lexLtB (a.take t.length) (k.take t.length) = true := by
          by_contra hc
          have hc' := Bool.eq_false_iff.mpr hc
          exact heq (lexLtB_antisymm hc' htake)
        exact lexLtB_trans hstop this
  · -- the Prefix test fired on a: a escaped the p-run, so does k
    right
    simp only [Bool.not_eq_true'] at hstop ⊢
    rw [Bool.eq_false_iff]
    intro hc
    -- p ≤ seff ≤ a and p not a prefix of a, so any p-extension is < a
    have hsp : lexLtB seff p = false := isPrefixOf_not_lexLtB hext
    have hap : lexLtB a p = false := by
      rw [Bool.eq_false_iff]
      intro hc'
      by_cases hps : p = seff
      · rw [hps] at hc'
        rw [hc'] at ha_ge
        exact Bool.noConfusion ha_ge
      · have : lexLtB p seff = true := by
          by_contra hpc
          exact hps (lexLtB_antisymm (Bool.eq_false_iff.mpr hpc) hsp)
        have := lexLtB_trans hc' this
        rw [this] at ha_ge
        exact Bool.noConfusion ha_ge
    have := ext_lt hstop hap k hc
    rw [hka] at this
    exact Bool.noConfusion this

theorem dropWhile_head_false {α : Type} (p : α → Bool) :
    ∀ (l : List α) (h₀ : α) (tail : List α), l.dropWhile p = h₀ :: tail → p h₀ = false := by
  intro l
  induction l with
  | nil => intro h₀ tail h; exact absurd h (by simp)
  | cons a l ih =>
    intro h₀ tail h
    by_cases ha : p a
    · rw [List.dropWhile_cons_of_pos ha] at h
      exact ih h₀ tail h
    · rw [List.dropWhile_cons_of_neg ha] at h
      obtain ⟨rfl, rfl⟩ := List.cons.inj h
      exact Bool.eq_false_iff.mpr ha

/-- With `include_stop = false`, the loop emits exactly the leading run
of scanned keys that do not trigger the stop test, provided some
scanned key does trigger it. -/
theorem iterLoop_takeWhile (cfg : IterCfg) (hincT : cfg.includeStop = false) :
    ∀ (rem : List Bytes) (prev : Option Bytes),
    (∀ k ∈ rem, stopIterationGo cfg (some k) = .ok (stopCondB cfg k)) →
    (∃ k ∈ rem, stopCondB cfg k = true) →
    (prev = none ∨ ∃ pk, prev = some pk ∧ stopIterationGo cfg (some pk) = .ok false) →
    iterLoop cfg rem prev = .emits (rem.takeWhile (fun k => !(stopCondB cfg k))) := by
  intro rem
  induction rem with
  | nil =>
    intro prev _ hex _
    simp at hex
  | cons key rest ih =>
    intro prev heval hex hprev
    have hprev_eval : stopIterationGo cfg prev = .ok false := by
      rcases hprev with rfl | ⟨pk, rfl, hpk⟩
      · rfl
      · exact hpk
    by_cases hstop : stopCondB cfg key
    · rw [List.takeWhile_cons_of_neg (by simp [hstop])]
      simp only [iterLoop]
      rw [hprev_eval, hincT, heval key (List.mem_cons_self _ _), hstop]
      rfl
    · have hstop' : stopCondB cfg key = false := Bool.eq_false_iff.mpr hstop
      have hex' : ∃ k ∈ rest, stopCondB cfg k = true := by
        obtain ⟨k₀, hk₀m, hk₀⟩ := hex
        rcases List.mem_cons.mp hk₀m with rfl | hk₀m'
        · rw [hk₀] at hstop'; exact Bool.noConfusion hstop'
        · exact ⟨k₀, hk₀m', hk₀⟩
      have hrec := ih (some key) (fun k hk => heval k (List.mem_cons_of_mem _ hk)) hex'
        (Or.inr ⟨key, rfl, by rw [heval key (List.mem_cons_self _ _), hstop']⟩)
      rw [List.takeWhile_cons_of_pos (by simp [hstop'])]
      simp only [iterLoop]
      rw [hprev_eval, hincT, heval key (List.mem_cons_self _ _), hstop', hrec]
      rfl

/-- The emitted run equals the claimed filter over the sorted store. -/
theorem takeWhile_seek_filter (cfg : IterCfg) (store : List Bytes) (p seff : Bytes)
    (hpfx : cfg.pfx = some p) (hext : p.isPrefixOf seff = true)
    (hsort : store.Pairwise (fun a b => lexLtB a b = true))
    (hstoplen : ∀ k ∈ store, ∀ t, cfg.stop = some t → t.length ≤ k.length) :
    (seekKeys store seff).takeWhile (fun k => !(stopCondB cfg k))
      = store.filter (fun k => !(lexLtB k seff) && !(stopCondB cfg k)) := by
  have hD : seekKeys store seff = store.dropWhile (fun k => lexLtB k seff) := rfl
  conv_rhs => rw [← List.takeWhile_append_dropWhile (fun k => lexLtB k seff) store]
  rw [List.filter_append]
  have h1 : (store.takeWhile (fun k => lexLtB k seff)).filter
      (fun k => !(lexLtB k seff) && !(stopCondB cfg k)) = [] := by
    rw [List.filter_eq_nil_iff]
    intro a ha
    have := List.mem_takeWhile_imp ha
    simp [this]
  have hmemD : ∀ k ∈ seekKeys store seff, k ∈ store := fun k hk =>
    (List.dropWhile_sublist _).subset hk
  have h2 : (store.dropWhile (fun k => lexLtB k seff)).filter
        (fun k => !(lexLtB k seff) && !(stopCondB cfg k))
      = (store.dropWhile (fun k => lexLtB k seff)).filter
        (fun k => !(stopCondB cfg k)) := by
    refine List.filter_congr ?_
    intro x hx
    have := seekKeys_not_lt store seff hsort x hx
    simp [this]
  rw [h1, h2, List.nil_append]
  -- filter Q D = takeWhile Q D on the scanned suffix D
  have hDsub : (store.dropWhile (fun k => lexLtB k seff)).Sublist store :=
    List.dropWhile_sublist _
  have h3 : (store.dropWhile (fun k => lexLtB k seff)).filter (fun k => !(stopCondB cfg k))
      = (store.dropWhile (fun k => lexLtB k seff)).takeWhile (fun k => !(stopCondB cfg k)) := by
    conv_lhs => rw [← List.takeWhile_append_dropWhile (fun k => !(stopCondB cfg k))
      (store.dropWhile (fun k => lexLtB k seff))]
    rw [List.filter_append]
    have ha : ((store.dropWhile (fun k => lexLtB k seff)).takeWhile
          (fun k => !(stopCondB cfg k))).filter (fun k => !(stopCondB cfg k))
        = (store.dropWhile (fun k => lexLtB k seff)).takeWhile (fun k => !(stopCondB cfg k)) := by
      rw [List.filter_eq_self]
      intro a ha
      exact List.mem_takeWhile_imp (p := fun k => !(stopCondB cfg k)) ha
    have hb : ((store.dropWhile (fun k => lexLtB k seff)).dropWhile
          (fun k => !(stopCondB cfg k))).filter (fun k => !(stopCondB cfg k)) = [] := by
      rw [List.filter_eq_nil_iff]
      rcases hE : (store.dropWhile (fun k => lexLtB k seff)).dropWhile
          (fun k => !(stopCondB cfg k)) with _ | ⟨h₀, tail⟩
      · intro a ha
        simp at ha
      · intro a ha
        have hh₀ : (!(stopCondB cfg h₀)) = false :=
          dropWhile_head_false _ (store.dropWhile (fun k => lexLtB k seff)) h₀ tail hE
        have hstoph₀ : stopCondB cfg h₀ = true := by simpa using hh₀
        have hEsub : (h₀ :: tail).Sublist (store.dropWhile (fun k => lexLtB k seff)) := by
          rw [← hE]
          exact List.dropWhile_sublist _
        have hpair : (h₀ :: tail).Pairwise (fun a b => lexLtB a b = true) :=
          List.Pairwise.sublist (hEsub.trans hDsub) hsort
        have hh₀ge : lexLtB h₀ seff = false :=
          seekKeys_not_lt store seff hsort h₀ (hEsub.subset (List.mem_cons_self _ _))
        have haS : a ∈ store := hDsub.subset (hEsub.subset ha)
        rcases List.mem_cons.mp ha with rfl | hatail
        · simp [hstoph₀]
        · have hlt : lexLtB h₀ a = true := (List.pairwise_cons.mp hpair).1 a hatail
          have hmono := stopCond_mono cfg p seff hpfx hext h₀ a
            (fun t ht => hstoplen a haS t ht) hh₀ge (Or.inl hlt) hstoph₀
          simp [hmono]
    rw [ha, hb, List.append_nil]
  rw [h3]
  rfl

/-- C2 amended.  Over a sorted store, with `include_start = true` and
`include_stop = false`, with `Start` (when given, else the row prefix
playing its role) extending the row prefix, with every stored key at
least as long as the configured bounds, and with the scan ending inside
the store (some key at or after the seek target triggers the stop
test), `Iter` emits exactly the stored keys that are at or after the
effective start, neither have `Stop` as a prefix nor exceed it, and
carry the row prefix — in store order. -/
theorem iter_bounded_scan (cfg : IterCfg) (store : List Bytes) (p seff : Bytes)
    (hpfx : cfg.pfx = some p)
    (hstart : cfg.start = some seff ∨ (cfg.start = none ∧ seff = p))
    (hext : p.isPrefixOf seff = true)
    (hincS : cfg.includeStart = true) (hincT : cfg.includeStop = false)
    (hsort : store.Pairwise (fun a b => lexLtB a b = true))
    (hlen : ∀ k ∈ store, (∀ t, cfg.stop = some t → t.length ≤ k.length) ∧
      (∀ s, cfg.start = some s → s.length ≤ k.length))
    (hterm : ∃ k ∈ store, lexLtB k seff = false ∧ stopCondB cfg k = true) :
    IterGo cfg store = .emits (store.filter
      (fun k => !(lexLtB k seff) && !(stopCondB cfg k))) := by
  have htgt : (match cfg.start with
      | some s => s
      | none => match cfg.pfx with
        | some p' => p'
        | none => []) = seff := by
    rcases hstart with h | ⟨h, rfl⟩
    · rw [h]
    · rw [h, hpfx]
  have heval : ∀ k ∈ seekKeys store seff,
      stopIterationGo cfg (some k) = .ok (stopCondB cfg k) := by
    intro k hk
    have hkS : k ∈ store := (List.dropWhile_sublist _).subset hk
    have hge : lexLtB k seff = false := seekKeys_not_lt store seff hsort k hk
    refine stopIterationGo_eval cfg k (fun t ht => (hlen k hkS).1 t ht) ?_
    intro s hs
    have hseq : s = seff := by
      rcases hstart with h | ⟨h, rfl⟩
      · rw [h] at hs
        exact (Option.some.inj hs).symm
      · rw [h] at hs
        exact Option.noConfusion hs
    refine ⟨(hlen k hkS).2 s hs, ?_⟩
    rw [hseq]
    exact take_len_not_lt hge
  have hex : ∃ k ∈ seekKeys store seff, stopCondB cfg k = true := by
    obtain ⟨k, hkS, hge, hsc⟩ := hterm
    exact ⟨k, mem_seekKeys_of_not_lt store seff k hkS hge, hsc⟩
  have hloop := iterLoop_takeWhile cfg hincT (seekKeys store seff) none heval hex (Or.inl rfl)
  have hfilter := takeWhile_seek_filter cfg store p seff hpfx hext hsort
    (fun k hk t ht => (hlen k hk).1 t ht)
  simp only [IterGo]
  rw [htgt, hincS]
  simp only [if_true]
  rw [hloop, hfilter]

/-- Witness for the amended C2 on a concrete sorted store. -/
theorem iter_bounded_scan_witness :
    IterGo ⟨some [117], some [117, 2], some [117, 9], true, false⟩
      [[117, 1], [117, 3], [117, 5], [117, 9, 1], [117, 10], [200, 0]]
      = .emits ([[117, 1], [117, 3], [117, 5], [117, 9, 1], [117, 10], [200, 0]].filter
          (fun k => !(lexLtB k [117, 2]) && !(stopCondB ⟨some [117], some [117, 2],
            some [117, 9], true, false⟩ k))) :=
  iter_bounded_scan ⟨some [117], some [117, 2], some [117, 9], true, false⟩
    [[117, 1], [117, 3], [117, 5], [117, 9, 1], [117, 10], [200, 0]] [117] [117, 2]
    rfl (Or.inl rfl) (by decide) rfl rfl
    (by decide)
    (by intro k hk
        simp only [List.mem_cons, List.not_mem_nil, or_false] at hk
        refine ⟨?_, ?_⟩ <;> intro x hx <;> cases hx <;>
          (rcases hk with rfl | rfl | rfl | rfl | rfl | rfl <;> decide))
    ⟨[117, 9, 1], by decide, by decide, by decide⟩

end Herald
